import Mathlib

/-!
Verification of the core logic of the reasoning-graph visualizer:
the event-log reconciler (`load_graph_from_jsonl`), the DAG level
calculator (`calculate_node_levels` with its inner `get_level`), the
text layout formatter (`get_smart_title` / `find_natural_break`) and
the presentation assembler (node colors and edge emission) from
`src/main.py` and `src/get_smart_title.py`.

Python dictionaries are modelled as association lists (`List (key × value)`,
first occurrence wins on lookup), Python's unbounded recursion is modelled
with an explicit fuel parameter (`none` = the recursion exceeds any given
depth bound), and Python strings are modelled as Lean `String`s with
character-list reasoning.
-/

namespace GraphViz

/-- `Node` record of the graph data model (`data_models.Node`): the shape is
fixed by its uses in `src/main.py` and by the spec's §3 data model. -/
structure Node where
  id : String
  conclusion : String
  justification : String
  premises : List String
  references : List String
  is_refutation : Bool
deriving DecidableEq, Repr

/-- Source citation of a reference (title and author list). -/
structure SourceCitation where
  title : String
  authors : List String
deriving DecidableEq, Repr

/-- `Reference` record of the graph data model. -/
structure Reference where
  statement : String
  source_citation : SourceCitation
  context : Option String
deriving DecidableEq, Repr

/-- `Graph` record: node mapping and reference mapping, modelled as
association lists (Python `dict`s; first occurrence wins on lookup). -/
structure Graph where
  nodes : List (String × Node)
  references : List (String × Reference)
deriving DecidableEq, Repr

/-- `graph.nodes[node_id]` / `node_id in graph.nodes`: dictionary lookup. -/
def findNode (g : Graph) (node_id : String) : Option Node :=
  (g.nodes.find? (fun p => p.1 == node_id)).map Prod.snd

/-! ## Event log reconciler (`load_graph_from_jsonl`, src/main.py lines 15-48)

A log line is modelled by the outcome of the I/O-and-JSON boundary:
blank lines, lines whose JSON decoding / field extraction / `Graph(**...)`
validation raises (caught and skipped with a warning), and successfully
parsed lines carrying the `event` tag together with the embedded graph
(`none` models a falsy `data.get("graph", {})`, i.e. absent or empty). -/
inductive LogLine where
  | blank : LogLine
  | malformed : LogLine
  | parsed (eventType : String) (graphData : Option Graph) : LogLine
deriving DecidableEq

/-- The scan loop of `load_graph_from_jsonl`: `candidate` is the local
variable `graph`; a `SystemFinishEvent` with a truthy graph `break`s. -/
def load_scan : List LogLine → Option Graph → Option Graph
  | [], candidate => candidate
  | line :: rest, candidate =>
    match line with
    | .blank => load_scan rest candidate
    | .malformed => load_scan rest candidate
    | .parsed eventType graphData =>
      if eventType = "SystemFinishEvent" then
        match graphData with
        | some gr => some gr
        | none => load_scan rest candidate
      else if eventType = "GraphMergeEvent" then
        match graphData with
        | some gr => load_scan rest (some gr)
        | none => load_scan rest candidate
      else load_scan rest candidate

/-- `load_graph_from_jsonl` (src/main.py lines 15-48). -/
def load_graph_from_jsonl (lines : List LogLine) : Option Graph :=
  load_scan lines none

/-! ## DAG level calculator (`calculate_node_levels`, src/main.py lines 51-90)

The Python inner function `get_level` mutates the dictionary `levels`
(the memo table) and recurses without any bound; here the memo is threaded
explicitly and a fuel parameter bounds the depth of nested `get_level`
calls, with `none` meaning the recursion is deeper than the given fuel
(for every fuel), i.e. the Python code would recurse unboundedly. -/

/-- The memo dictionary `levels` of `calculate_node_levels`. -/
def Memo := List (String × Nat)

instance : DecidableEq Memo := inferInstanceAs (DecidableEq (List (String × Nat)))

/-- `levels[node_id]` / `node_id in levels`: dictionary lookup in the memo. -/
def lookupLevel (levels : Memo) (node_id : String) : Option Nat :=
  (levels.find? (fun p => p.1 == node_id)).map Prod.snd

/-- Python's `max` on a list of naturals (the code only applies it to
non-empty lists, where this fold agrees with `max`). -/
def listMax (l : List Nat) : Nat := l.foldl Nat.max 0

/-- The list comprehension
`[get_level(pid) for pid in node.premises if pid in graph.nodes]`
(src/main.py line 77), evaluated left to right threading the memo, with
the recursive `get_level` of the next-smaller fuel passed as `glv`. -/
def get_levels_with (g : Graph) (glv : Memo → String → Option (Nat × Memo)) :
    Memo → List String → Option (List Nat × Memo)
  | levels, [] => some ([], levels)
  | levels, pid :: rest =>
    if (findNode g pid).isSome then
      match glv levels pid with
      | none => none
      | some (l, levels1) =>
        match get_levels_with g glv levels1 rest with
        | none => none
        | some (ls, levels2) => some (l :: ls, levels2)
    else
      get_levels_with g glv levels rest

/-- `get_level` (src/main.py lines 62-84), with the memo threaded and a
fuel bound on the nesting depth of recursive `get_level` calls. -/
def get_level (g : Graph) : Nat → Memo → String → Option (Nat × Memo)
  | 0, _, _ => none
  | fuel + 1, levels, node_id =>
    match lookupLevel levels node_id with
    | some l => some (l, levels)
    | none =>
      match findNode g node_id with
      | none => some (0, levels)
      | some node =>
        if node.premises.isEmpty then
          some (0, (node_id, 0) :: levels)
        else
          match get_levels_with g (get_level g fuel) levels node.premises with
          | none => none
          | some (parent_levels, levels1) =>
            let level := if parent_levels.isEmpty then 0 else listMax parent_levels + 1
            some (level, (node_id, level) :: levels1)

/-- The premise evaluation at a given fuel (abbreviation for statements). -/
def get_levels (g : Graph) (fuel : Nat) : Memo → List String → Option (List Nat × Memo) :=
  get_levels_with g (get_level g fuel)

/-- The loop `for node_id in graph.nodes: get_level(node_id)`
(src/main.py lines 87-88), threading the memo. -/
def calc_levels_loop (g : Graph) (fuel : Nat) : List String → Memo → Option Memo
  | [], levels => some levels
  | nid :: rest, levels =>
    match get_level g fuel levels nid with
    | none => none
    | some (_, levels1) => calc_levels_loop g fuel rest levels1

/-- `calculate_node_levels` (src/main.py lines 51-90): the resulting
`levels` dictionary, or `none` if the recursion exceeds `fuel`. -/
def calculate_node_levels (g : Graph) (fuel : Nat) : Option Memo :=
  calc_levels_loop g fuel (g.nodes.map Prod.fst) []

/-! ## Text layout formatter (`src/get_smart_title.py`)

Python string splitting and joining are modelled at the character-list
level: `psplit p` is Python `str.split()` generalized to a separator
predicate (splits at separator runs and drops empty pieces, which is
exactly `str.split()`'s no-argument behavior for `p = isWhitespace`),
and `joinSep` is `sep.join(...)`. -/

/-- Worker of the splitter: `acc` is the current (possibly empty) run of
non-separator characters read so far. -/
def psplitAux (p : Char → Bool) : List Char → List Char → List (List Char)
  | [], acc => if acc.isEmpty then [] else [acc]
  | c :: cs, acc =>
    if p c then
      if acc.isEmpty then psplitAux p cs []
      else acc :: psplitAux p cs []
    else psplitAux p cs (acc ++ [c])

/-- Python `str.split()` generalized to a separator-character predicate:
maximal runs of non-separator characters, empty pieces dropped. -/
def psplit (p : Char → Bool) (l : List Char) : List (List Char) :=
  psplitAux p l []

/-- `node_content.strip().split()` / `text.split()`: split on whitespace
runs (leading and trailing whitespace yield no pieces, so the `strip()`
is immaterial). -/
def splitWords (s : String) : List String :=
  (psplit (fun c => c.isWhitespace) s.data).map String.mk

/-- `sep.join(pieces)` at the character-list level. -/
def joinSep (sep : List Char) : List (List Char) → List Char
  | [] => []
  | [w] => w
  | w :: ws => w ++ sep ++ joinSep sep ws

/-- `" ".join(ws)`. -/
def joinWords (ws : List String) : String :=
  String.mk (joinSep [' '] (ws.map String.data))

/-- The line-join of the formatter (a newline between lines). -/
def joinLines (ls : List String) : String :=
  String.mk (joinSep ['\n'] (ls.map String.data))

/-- `" ".join(node_content.strip().split())` (src/get_smart_title.py
line 16): whitespace normalization. -/
def normalizeText (s : String) : String := joinWords (splitWords s)

/-- The lines of an output string: split on newline characters. -/
def linesOf (s : String) : List String :=
  (psplit (fun c => c == '\n') s.data).map String.mk

/-- Apply `f` to the last element of a list (identity on `[]`): used to
state that the truncation marker is glued onto the final word. -/
def mapLast {α : Type} (f : α → α) : List α → List α
  | [] => []
  | [a] => [f a]
  | a :: b :: rest => a :: mapLast f (b :: rest)

/-- Python `w.endswith(p)`: suffix test, on the character lists. -/
def strEndsWith (w p : String) : Bool := List.isSuffixOf p.data w.data

/-- Python `str.lower()` (character-wise case folding). -/
def strToLower (s : String) : String := String.mk (s.data.map Char.toLower)

/-- `break_punctuation = {",", ";", ":", ".", "!", "?"}`
(src/get_smart_title.py line 62). -/
def break_punctuation : List String := [",", ";", ":", ".", "!", "?"]

/-- `any(word.endswith(p) for p in break_punctuation)`. -/
def endsWithBreakPunct (w : String) : Bool :=
  break_punctuation.any (fun p => strEndsWith w p)

/-- The scan `for i in range(len(cws) - 1, max(0, len(cws) - 4), -1)`
(src/get_smart_title.py lines 65-69): the argument is the current index
`i`, `lo` the exclusive stop; returns the first (largest) index whose
word ends with break punctuation. Note the stop is exclusive, so index
0 is never inspected and at most the last three words are. -/
def punctScanAux (cws : List String) (lo : Nat) : Nat → Option Nat
  | 0 => none
  | j + 1 =>
    if lo ≤ j then
      if endsWithBreakPunct (cws.getD (j + 1) "") then some (j + 1)
      else punctScanAux cws lo j
    else none

/-- `dont_break_before` (src/get_smart_title.py lines 78-94). -/
def dont_break_before : List String :=
  ["the", "a", "an", "of", "in", "on", "at", "to", "for",
   "and", "or", "but", "with", "from", "by"]

/-- `find_natural_break` (src/get_smart_title.py lines 54-100).
The source also computes `last_word` (line 74) but never uses it in the
test on line 97, so it is omitted here. -/
def find_natural_break (current_words : List String) (all_words : List String)
    (next_idx : Nat) : List String :=
  if current_words.isEmpty then current_words
  else
    match punctScanAux current_words (current_words.length - 4)
        (current_words.length - 1) with
    | some i => current_words.take (i + 1)
    | none =>
      if next_idx < all_words.length then
        let next_word := strToLower (all_words.getD next_idx "")
        if dont_break_before.contains next_word ∧ 3 < current_words.length then
          current_words.dropLast
        else current_words
      else current_words

/-- The `for line_num in range(max_lines)` loop of `get_smart_title`
(src/get_smart_title.py lines 29-45), with the line accumulator kept as
word lists (joined to strings afterwards, which yields the identical
string) and `remaining = max_lines - line_num` counting down; the
condition `line_num < max_lines - 1` is `0 < remaining` here. Returns
the accumulated lines and the final `word_idx`. -/
def gst_loop (words : List String) (maxW : Nat) :
    Nat → Nat → List (List String) → (List (List String) × Nat)
  | 0, word_idx, lines => (lines, word_idx)
  | remaining + 1, word_idx, lines =>
    if words.length ≤ word_idx then (lines, word_idx)
    else
      let current_line_words := (words.drop word_idx).take maxW
      let idx1 := word_idx + current_line_words.length
      if 0 < remaining ∧ idx1 < words.length then
        let adjusted := find_natural_break current_line_words words idx1
        let idx2 := idx1 - (maxW - adjusted.length)
        gst_loop words maxW remaining idx2 (lines ++ [adjusted])
      else
        gst_loop words maxW remaining idx1 (lines ++ [current_line_words])

/-- `get_smart_title` (src/get_smart_title.py lines 1-51). The source's
`lines[-1] = lines[-1] + "..."` raises `IndexError` when `lines` is
empty, which can only happen for `max_lines = 0`; this embedding is
faithful for `max_lines ≥ 1` (all claims assume the bounds are ≥ 1). -/
def get_smart_title (node_content : String) (max_words_per_line : Nat := 8)
    (max_lines : Nat := 2) : String :=
  let text := normalizeText node_content
  let words := splitWords text
  if words.length ≤ max_words_per_line then text
  else
    let r := gst_loop words max_words_per_line max_lines 0 []
    let lines := r.1.map joinWords
    let lines2 :=
      if r.2 < words.length then
        lines.dropLast ++ [(lines.getLast?).getD "" ++ "..."]
      else lines
    joinLines lines2

/-! ## Presentation assembler (`create_pyvis_network`, src/main.py lines 93-293)

Only the logic the claims are about is modelled: the root-node set, the
per-node color choice (the code's visual category), and the emitted
edge list. -/

/-- `root_nodes = {node_id for node_id, node in graph.nodes.items() if not node.premises}`
(src/main.py line 131). -/
def root_nodes (g : Graph) : List String :=
  (g.nodes.filter (fun p => p.2.premises.isEmpty)).map Prod.fst

/-- `normal_color = "#ADD8E6"` (src/main.py line 134). -/
def normal_color : String := "#ADD8E6"

/-- `refutation_color = "#F08080"` (src/main.py line 135). -/
def refutation_color : String := "#F08080"

/-- `root_color = "#90EE90"` (src/main.py line 136). -/
def root_color : String := "#90EE90"

/-- The color branch of the node loop (src/main.py lines 139-149): the
visual category of a node, expressed as the chosen fill color. -/
def node_color (g : Graph) (node_id : String) (node : Node) : String :=
  if node.is_refutation then refutation_color
  else if (root_nodes g).contains node_id then root_color
  else normal_color

/-- The edge loop (src/main.py lines 204-213): one `(premise_id, node_id)`
edge per premise of each node that exists in `graph.nodes`. -/
def assembler_edges (g : Graph) : List (String × String) :=
  g.nodes.flatMap (fun p =>
    (p.2.premises.filter (fun pid => (findNode g pid).isSome)).map
      (fun pid => (pid, p.1)))

/-! ## Specification predicates and concrete example inputs -/

/-- The premises of `node` that exist in `g.nodes`
(`[pid for pid in node.premises if pid in graph.nodes]`). -/
def existingPremises (g : Graph) (node : Node) : List String :=
  node.premises.filter (fun p => (findNode g p).isSome)

/-- The level-map contract of the spec (§4.2): every node of the graph has
an entry; it is 0 when the node has no premises existing in the graph, and
otherwise 1 + the maximum of the levels of its existing premises. -/
def LevelSpec (g : Graph) (L : Memo) : Prop :=
  ∀ n node, findNode g n = some node →
    ∃ l, lookupLevel L n = some l ∧
      (existingPremises g node = [] → l = 0) ∧
      (existingPremises g node ≠ [] →
        l = listMax ((existingPremises g node).map
              (fun p => (lookupLevel L p).getD 0)) + 1)

/-- Acyclicity of the existing-premise relation, phrased as the existence
of a topological rank: every existing premise of an existing node has
strictly smaller rank than the node. -/
def Acyclic (g : Graph) : Prop :=
  ∃ rank : String → Nat,
    ∀ n node, findNode g n = some node →
      ∀ p ∈ node.premises, (findNode g p).isSome → rank p < rank n

/-- The rank property of `Acyclic`, with the rank function explicit. -/
def RankOk (g : Graph) (rank : String → Nat) : Prop :=
  ∀ n node, findNode g n = some node →
    ∀ p ∈ node.premises, (findNode g p).isSome → rank p < rank n

/-- Memo extension: every binding present in `L` is still looked up
unchanged in `L'`. -/
def MemoLE (L L' : Memo) : Prop :=
  ∀ k v, lookupLevel L k = some v → lookupLevel L' k = some v

/-- Invariant of the memo dictionary `levels`: every binding belongs to an
existing node and already satisfies the level equation with respect to the
memo itself. -/
def MemoInv (g : Graph) (L : Memo) : Prop :=
  ∀ n l, lookupLevel L n = some l →
    ∃ node, findNode g n = some node ∧
      (existingPremises g node = [] → l = 0) ∧
      (existingPremises g node ≠ [] →
        (∀ p ∈ existingPremises g node, (lookupLevel L p).isSome) ∧
        l = listMax ((existingPremises g node).map
              (fun p => (lookupLevel L p).getD 0)) + 1)

/-- Bundled conclusions of the soundness lemma for one `get_level` call
returning `(l, L')` from memo `L`: the memo only grows, the memo invariant
is preserved, an existing queried node ends up memoized with the returned
value, and every newly added key is an existing node of rank at most the
queried node's rank. -/
def GLOut (g : Graph) (rank : String → Nat) (L : Memo) (n : String)
    (l : Nat) (L' : Memo) : Prop :=
  MemoLE L L' ∧
  (MemoInv g L → MemoInv g L') ∧
  ((findNode g n).isSome → lookupLevel L' n = some l) ∧
  (∀ k, lookupLevel L k = none → (lookupLevel L' k).isSome →
    (findNode g k).isSome ∧ rank k ≤ rank n)

/-- Bundled conclusions of the soundness lemma for the premise-list
evaluation returning `(ls, L')` from memo `L`: memo growth, invariant
preservation, coverage of the existing premises, the returned list being
exactly the final memo values of the existing premises, and a rank bound
on newly added keys. -/
def GLsOut (g : Graph) (rank : String → Nat) (L : Memo) (pids : List String)
    (ls : List Nat) (L' : Memo) : Prop :=
  MemoLE L L' ∧
  (MemoInv g L → MemoInv g L') ∧
  (∀ p ∈ pids, (findNode g p).isSome → (lookupLevel L' p).isSome) ∧
  ls = (pids.filter (fun p => (findNode g p).isSome)).map
        (fun p => (lookupLevel L' p).getD 0) ∧
  (∀ k, lookupLevel L k = none → (lookupLevel L' k).isSome →
    (findNode g k).isSome ∧ ∃ p ∈ pids, (findNode g p).isSome ∧ rank k ≤ rank p)

/-- A node with only presentation-irrelevant text fields, used to build
concrete example graphs. -/
def mkNode (i : String) (prems : List String) : Node :=
  { id := i, conclusion := "", justification := "", premises := prems,
    references := [], is_refutation := false }

/-- Chain graph: A (no premises), B (premises=[A]), C (premises=[B]). -/
def chainG : Graph :=
  { nodes := [("A", mkNode "A" []), ("B", mkNode "B" ["A"]),
              ("C", mkNode "C" ["B"])],
    references := [] }

/-- Graph with a single node D whose only premise identifier is absent. -/
def ghostG : Graph :=
  { nodes := [("D", mkNode "D" ["ghost"])], references := [] }

/-- Cyclic graph: X (premises=[Y]) and Y (premises=[X]). -/
def cycleG : Graph :=
  { nodes := [("X", mkNode "X" ["Y"]), ("Y", mkNode "Y" ["X"])],
    references := [] }

/-- A parsed full-snapshot record with a truthy embedded graph. -/
def isTerminalSnapshot : LogLine → Bool
  | .parsed et (some _) => et == "SystemFinishEvent"
  | _ => false

/-- A parsed incremental-merge record with a truthy embedded graph. -/
def isMergeSnapshot : LogLine → Bool
  | .parsed et (some _) => et == "GraphMergeEvent"
  | _ => false

/-- Any parsed record tagged as the full-snapshot event (truthy graph
or not). -/
def isFinishTagged : LogLine → Bool
  | .parsed et _ => et == "SystemFinishEvent"
  | _ => false

/-! ## Lemmas about the event log reconciler -/

theorem load_scan_reaches_terminal (l1 l2 : List LogLine) (g : Graph)
    (h : ∀ e ∈ l1, isTerminalSnapshot e = false) :
    ∀ c, load_scan (l1 ++ LogLine.parsed "SystemFinishEvent" (some g) :: l2) c
      = some g := by
  induction l1 with
  | nil => intro c; simp [load_scan]
  | cons line rest ih =>
    intro c
    have hline := h line (by simp)
    have hrest : ∀ e ∈ rest, isTerminalSnapshot e = false :=
      fun e he => h e (by simp [he])
    cases line with
    | blank => simpa [load_scan] using ih hrest c
    | malformed => simpa [load_scan] using ih hrest c
    | parsed et gd =>
      cases gd with
      | some gr =>
        by_cases hfin : et = "SystemFinishEvent"
        · subst hfin; simp [isTerminalSnapshot] at hline
        · by_cases hm : et = "GraphMergeEvent"
          · subst hm; simp [load_scan, ih hrest]
          · simp [load_scan, hfin, hm, ih hrest]
      | none =>
        by_cases hfin : et = "SystemFinishEvent"
        · subst hfin; simp [load_scan, ih hrest]
        · by_cases hm : et = "GraphMergeEvent"
          · subst hm; simp [load_scan, ih hrest]
          · simp [load_scan, hfin, hm, ih hrest]

theorem load_scan_keeps_candidate (l : List LogLine) (g : Graph)
    (hfin : ∀ e ∈ l, isFinishTagged e = false)
    (hmerge : ∀ e ∈ l, isMergeSnapshot e = false) :
    load_scan l (some g) = some g := by
  induction l with
  | nil => rfl
  | cons line rest ih =>
    have hf := hfin line (by simp)
    have hm := hmerge line (by simp)
    have ih' := ih (fun e he => hfin e (by simp [he]))
      (fun e he => hmerge e (by simp [he]))
    cases line with
    | blank => simpa [load_scan] using ih'
    | malformed => simpa [load_scan] using ih'
    | parsed et gd =>
      have hfin' : ¬ et = "SystemFinishEvent" := by
        intro hc; subst hc; simp [isFinishTagged] at hf
      cases gd with
      | some gr =>
        have hm' : ¬ et = "GraphMergeEvent" := by
          intro hc; subst hc; simp [isMergeSnapshot] at hm
        simp [load_scan, hfin', hm', ih']
      | none =>
        by_cases hmm : et = "GraphMergeEvent"
        · subst hmm; simp [load_scan, hfin', ih']
        · simp [load_scan, hfin', hmm, ih']

theorem load_scan_reaches_last_merge (l1 l2 : List LogLine) (g : Graph)
    (hfin1 : ∀ e ∈ l1, isFinishTagged e = false)
    (hfin2 : ∀ e ∈ l2, isFinishTagged e = false)
    (hl2 : ∀ e ∈ l2, isMergeSnapshot e = false) :
    ∀ c, load_scan (l1 ++ LogLine.parsed "GraphMergeEvent" (some g) :: l2) c
      = some g := by
  induction l1 with
  | nil =>
    intro c
    have : load_scan (LogLine.parsed "GraphMergeEvent" (some g) :: l2) c
        = load_scan l2 (some g) := by simp [load_scan]
    rw [List.nil_append, this, load_scan_keeps_candidate l2 g hfin2 hl2]
  | cons line rest ih =>
    intro c
    have hf := hfin1 line (by simp)
    have ih' := ih (fun e he => hfin1 e (by simp [he]))
    cases line with
    | blank => simpa [load_scan] using ih' c
    | malformed => simpa [load_scan] using ih' c
    | parsed et gd =>
      have hne : ¬ et = "SystemFinishEvent" := by
        intro hc; subst hc; simp [isFinishTagged] at hf
      cases gd with
      | some gr =>
        by_cases hm : et = "GraphMergeEvent"
        · subst hm; simp [load_scan, ih']
        · simp [load_scan, hne, hm, ih']
      | none =>
        by_cases hm : et = "GraphMergeEvent"
        · subst hm; simp [load_scan, hne, ih']
        · simp [load_scan, hne, hm, ih']

/-! ## Lemmas about the assembler -/

theorem findNode_mem {g : Graph} {n : String} {node : Node}
    (h : findNode g n = some node) : (n, node) ∈ g.nodes := by
  unfold findNode at h
  cases hf : g.nodes.find? (fun p => p.1 == n) with
  | none => rw [hf] at h; simp at h
  | some q =>
    rw [hf] at h
    simp at h
    have hq := List.mem_of_find?_eq_some hf
    have hq1 := List.find?_some hf
    have : q = (n, node) := by
      cases q with
      | mk a b =>
        simp at hq1 h
        simp [hq1, h]
    rwa [this] at hq

theorem findNode_isSome_of_mem {g : Graph} {n : String} {node : Node}
    (h : (n, node) ∈ g.nodes) : (findNode g n).isSome := by
  have hs : (g.nodes.find? (fun p => p.1 == n)).isSome :=
    List.find?_isSome.mpr ⟨(n, node), h, by simp⟩
  unfold findNode
  cases hx : g.nodes.find? (fun p => p.1 == n) with
  | none => rw [hx] at hs; simp at hs
  | some q => simp

theorem mem_assembler_edges {g : Graph} {p n : String} :
    (p, n) ∈ assembler_edges g ↔
      ∃ e ∈ g.nodes, e.1 = n ∧ p ∈ e.2.premises ∧ (findNode g p).isSome := by
  unfold assembler_edges
  simp only [List.mem_flatMap, List.mem_map, List.mem_filter]
  constructor
  · rintro ⟨e, he, pid, ⟨hpid, hsome⟩, heq⟩
    have h1 : pid = p := congrArg Prod.fst heq
    have h2 : e.1 = n := congrArg Prod.snd heq
    subst h1
    exact ⟨e, he, h2, hpid, hsome⟩
  · rintro ⟨e, he, h1, h2, h3⟩
    exact ⟨e, he, p, ⟨h2, h3⟩, by rw [h1]⟩

theorem mem_root_nodes {g : Graph} (hkeys : (g.nodes.map Prod.fst).Nodup)
    {nid : String} {node : Node} (hmem : (nid, node) ∈ g.nodes) :
    nid ∈ root_nodes g ↔ node.premises = [] := by
  unfold root_nodes
  simp only [List.mem_map, List.mem_filter]
  constructor
  · rintro ⟨e, ⟨he, hempty⟩, heq⟩
    have : e = (nid, node) := by
      apply List.inj_on_of_nodup_map hkeys he hmem
      simpa using heq
    rw [this] at hempty
    simpa using hempty
  · intro h
    exact ⟨(nid, node), ⟨hmem, by simpa using h⟩, rfl⟩

/-! ## Lemmas about the level calculator on the cyclic example -/

theorem cycle_get_level_none : ∀ (fuel : Nat) (L : Memo),
    lookupLevel L "X" = none → lookupLevel L "Y" = none →
    get_level cycleG fuel L "X" = none ∧ get_level cycleG fuel L "Y" = none := by
  intro fuel
  induction fuel with
  | zero => intro L _ _; exact ⟨by simp [get_level], by simp [get_level]⟩
  | succ fuel ih =>
    intro L hX hY
    have hfX : findNode cycleG "X" = some (mkNode "X" ["Y"]) := by rfl
    have hfY : findNode cycleG "Y" = some (mkNode "Y" ["X"]) := by rfl
    have hglY : get_levels_with cycleG (get_level cycleG fuel) L ["Y"] = none := by
      simp [get_levels_with, hfY, (ih L hX hY).2]
    have hglX : get_levels_with cycleG (get_level cycleG fuel) L ["X"] = none := by
      simp [get_levels_with, hfX, (ih L hX hY).1]
    constructor
    · simp [get_level, hX, hfX, mkNode, hglY]
    · simp [get_level, hY, hfY, mkNode, hglX]

/-! ## Lemmas about memo dictionaries -/

theorem lookupLevel_nil (k : String) : lookupLevel [] k = none := rfl

theorem lookupLevel_cons (nid : String) (lv : Nat) (L : Memo) (k : String) :
    lookupLevel ((nid, lv) :: L) k
      = if k = nid then some lv else lookupLevel L k := by
  by_cases h : k = nid
  · subst h
    show (List.find? (fun p => p.1 == k) ((k, lv) :: L)).map Prod.snd = _
    rw [List.find?_cons_of_pos]
    · simp
    · simp
  · show (List.find? (fun p => p.1 == k) ((nid, lv) :: L)).map Prod.snd = _
    rw [List.find?_cons_of_neg]
    · rw [if_neg h]; rfl
    · simp
      exact fun hc => h hc.symm

theorem memoLE_refl (L : Memo) : MemoLE L L := fun _ _ h => h

theorem memoLE_trans {L1 L2 L3 : Memo} (h1 : MemoLE L1 L2)
    (h2 : MemoLE L2 L3) : MemoLE L1 L3 :=
  fun k v h => h2 k v (h1 k v h)

theorem memoLE_cons {L : Memo} {nid : String} (lv : Nat)
    (h : lookupLevel L nid = none) : MemoLE L ((nid, lv) :: L) := by
  intro k v hk
  by_cases hkn : k = nid
  · subst hkn; rw [hk] at h; exact absurd h (by simp)
  · rw [lookupLevel_cons, if_neg hkn]; exact hk

theorem memoInv_nil (g : Graph) : MemoInv g [] := by
  intro n l h
  simp [lookupLevel] at h

theorem memoInv_cons {g : Graph} {L : Memo} {nid : String} {lv : Nat}
    {node : Node}
    (hnew : lookupLevel L nid = none) (hfn : findNode g nid = some node)
    (hinv : MemoInv g L)
    (h0 : existingPremises g node = [] → lv = 0)
    (h1 : existingPremises g node ≠ [] →
      (∀ p ∈ existingPremises g node, (lookupLevel L p).isSome) ∧
      lv = listMax ((existingPremises g node).map
            (fun p => (lookupLevel L p).getD 0)) + 1) :
    MemoInv g ((nid, lv) :: L) := by
  have hpnid : ∀ p : String, (lookupLevel L p).isSome →
      lookupLevel ((nid, lv) :: L) p = lookupLevel L p := by
    intro p hp
    rw [lookupLevel_cons, if_neg]
    intro hc; subst hc; rw [hnew] at hp; simp at hp
  intro k l hk
  rw [lookupLevel_cons] at hk
  by_cases hkn : k = nid
  · rw [if_pos hkn] at hk
    subst hkn
    have hl : lv = l := by injection hk
    subst hl
    refine ⟨node, hfn, h0, fun hne => ?_⟩
    obtain ⟨hsome, heq⟩ := h1 hne
    constructor
    · intro p hp
      rw [hpnid p (hsome p hp)]
      exact hsome p hp
    · rw [List.map_congr_left (fun p hp => by rw [hpnid p (hsome p hp)])]
      exact heq
  · rw [if_neg hkn] at hk
    obtain ⟨node', hfn', h0', h1'⟩ := hinv k l hk
    refine ⟨node', hfn', h0', fun hne => ?_⟩
    obtain ⟨hsome', heq'⟩ := h1' hne
    constructor
    · intro p hp
      rw [hpnid p (hsome' p hp)]
      exact hsome' p hp
    · rw [List.map_congr_left (fun p hp => by rw [hpnid p (hsome' p hp)])]
      exact heq'

/-! ## Soundness of the level calculator -/

theorem get_levels_sound (g : Graph) (rank : String → Nat) (fuel : Nat)
    (IH : ∀ L n l L', get_level g fuel L n = some (l, L') →
      GLOut g rank L n l L') :
    ∀ (pids : List String) (L : Memo) (ls : List Nat) (L' : Memo),
      get_levels_with g (get_level g fuel) L pids = some (ls, L') →
      GLsOut g rank L pids ls L' := by
  intro pids
  induction pids with
  | nil =>
    intro L ls L' h
    simp only [get_levels_with, Option.some.injEq, Prod.mk.injEq] at h
    obtain ⟨h1, h2⟩ := h
    subst h1; subst h2
    refine ⟨memoLE_refl L, fun hi => hi, by simp, by simp, ?_⟩
    intro k hk1 hk2
    rw [hk1] at hk2; simp at hk2
  | cons pid rest ihrest =>
    intro L ls L' h
    simp only [get_levels_with] at h
    by_cases hex : (findNode g pid).isSome = true
    · rw [if_pos hex] at h
      split at h
      · simp at h
      · next l1 L1 hgl =>
        split at h
        · simp at h
        · next ls2 L2 hgls =>
          simp only [Option.some.injEq, Prod.mk.injEq] at h
          obtain ⟨hls, hL2⟩ := h
          subst hls; subst hL2
          obtain ⟨le1, inv1, memo1, new1⟩ := IH L pid l1 L1 hgl
          obtain ⟨le2, inv2, cov2, val2, new2⟩ := ihrest L1 ls2 L2 hgls
          have hmemo : lookupLevel L2 pid = some l1 := le2 pid l1 (memo1 hex)
          refine ⟨memoLE_trans le1 le2, fun hi => inv2 (inv1 hi), ?_, ?_, ?_⟩
          · intro p hp hpex
            rcases List.mem_cons.mp hp with rfl | hp2
            · rw [hmemo]; rfl
            · exact cov2 p hp2 hpex
          · have hfc : List.filter (fun p => (findNode g p).isSome) (pid :: rest)
                = pid :: List.filter (fun p => (findNode g p).isSome) rest :=
              List.filter_cons_of_pos hex
            rw [hfc, List.map_cons, hmemo]
            simp only [Option.getD_some]
            rw [val2]
          · intro k hk1 hk2
            by_cases hk3 : (lookupLevel L1 k).isSome
            · obtain ⟨hex', hrk⟩ := new1 k hk1 hk3
              exact ⟨hex', pid, by simp, hex, hrk⟩
            · have hk1' : lookupLevel L1 k = none := by
                cases hx : lookupLevel L1 k with
                | none => rfl
                | some v => rw [hx] at hk3; simp at hk3
              obtain ⟨hex', p, hp, hpex, hrk⟩ := new2 k hk1' hk2
              exact ⟨hex', p, by simp [hp], hpex, hrk⟩
    · rw [if_neg hex] at h
      obtain ⟨le2, inv2, cov2, val2, new2⟩ := ihrest L ls L' h
      refine ⟨le2, inv2, ?_, ?_, ?_⟩
      · intro p hp hpex
        rcases List.mem_cons.mp hp with rfl | hp2
        · exact absurd hpex hex
        · exact cov2 p hp2 hpex
      · have hfc : List.filter (fun p => (findNode g p).isSome) (pid :: rest)
            = List.filter (fun p => (findNode g p).isSome) rest :=
          List.filter_cons_of_neg (by simpa using hex)
        rw [hfc]
        exact val2
      · intro k hk1 hk2
        obtain ⟨hex', p, hp, hpex, hrk⟩ := new2 k hk1 hk2
        exact ⟨hex', p, by simp [hp], hpex, hrk⟩

theorem get_level_sound (g : Graph) (rank : String → Nat)
    (hrank : RankOk g rank) :
    ∀ (fuel : Nat) (L : Memo) (n : String) (l : Nat) (L' : Memo),
      get_level g fuel L n = some (l, L') → GLOut g rank L n l L' := by
  intro fuel
  induction fuel with
  | zero => intro L n l L' h; simp [get_level] at h
  | succ fuel ih =>
    intro L n l L' h
    have hls := get_levels_sound g rank fuel ih
    simp only [get_level] at h
    split at h
    · next l0 hmem =>
      simp only [Option.some.injEq, Prod.mk.injEq] at h
      obtain ⟨h1, h2⟩ := h
      subst h1; subst h2
      refine ⟨memoLE_refl L, fun hi => hi, fun _ => hmem, ?_⟩
      intro k hk1 hk2
      rw [hk1] at hk2; simp at hk2
    · next hmem =>
      split at h
      · next hfn =>
        simp only [Option.some.injEq, Prod.mk.injEq] at h
        obtain ⟨h1, h2⟩ := h
        subst h1; subst h2
        refine ⟨memoLE_refl L, fun hi => hi, ?_, ?_⟩
        · intro hex; rw [hfn] at hex; simp at hex
        · intro k hk1 hk2
          rw [hk1] at hk2; simp at hk2
      · next node hfn =>
        by_cases hprem : node.premises.isEmpty = true
        · rw [if_pos hprem] at h
          simp only [Option.some.injEq, Prod.mk.injEq] at h
          obtain ⟨h1, h2⟩ := h
          subst h1; subst h2
          have hpremnil : node.premises = [] := by simpa using hprem
          have hex0 : existingPremises g node = [] := by
            simp [existingPremises, hpremnil]
          refine ⟨memoLE_cons 0 hmem, ?_, ?_, ?_⟩
          · intro hi
            exact memoInv_cons hmem hfn hi (fun _ => rfl)
              (fun hne => absurd hex0 hne)
          · intro _; rw [lookupLevel_cons, if_pos rfl]
          · intro k hk1 hk2
            by_cases hkn : k = n
            · subst hkn; exact ⟨by rw [hfn]; rfl, Nat.le_refl _⟩
            · rw [lookupLevel_cons, if_neg hkn] at hk2
              rw [hk1] at hk2; simp at hk2
        · rw [if_neg hprem] at h
          split at h
          · simp at h
          · next pl L1 hgls =>
            simp only [Option.some.injEq, Prod.mk.injEq] at h
            obtain ⟨h1, h2⟩ := h
            obtain ⟨le1, inv1, cov1, val1, new1⟩ := hls node.premises L pl L1 hgls
            have hnoshadow : lookupLevel L1 n = none := by
              cases hn1 : lookupLevel L1 n with
              | none => rfl
              | some v =>
                obtain ⟨_, p, hpmem, hpex, hrk⟩ :=
                  new1 n hmem (by rw [hn1]; rfl)
                have : rank p < rank n := hrank n node hfn p hpmem hpex
                omega
            have hplval : pl = (existingPremises g node).map
                (fun p => (lookupLevel L1 p).getD 0) := val1
            subst h1; subst h2
            refine ⟨memoLE_trans le1 (memoLE_cons _ hnoshadow), ?_, ?_, ?_⟩
            · intro hi
              apply memoInv_cons hnoshadow hfn (inv1 hi)
              · intro hexnil
                rw [hexnil] at hplval
                simp at hplval
                simp [hplval]
              · intro hne
                have hplne : pl.isEmpty = false := by
                  rw [hplval]
                  simp [hne]
                constructor
                · intro p hp
                  obtain ⟨hp1, hp2⟩ := List.mem_filter.mp hp
                  exact cov1 p hp1 hp2
                · rw [if_neg (by rw [hplne]; simp), hplval]
            · intro _; rw [lookupLevel_cons, if_pos rfl]
            · intro k hk1 hk2
              by_cases hkn : k = n
              · subst hkn; exact ⟨by rw [hfn]; rfl, Nat.le_refl _⟩
              · rw [lookupLevel_cons, if_neg hkn] at hk2
                obtain ⟨hex', p, hpmem, hpex, hrk⟩ := new1 k hk1 hk2
                have : rank p < rank n := hrank n node hfn p hpmem hpex
                exact ⟨hex', by omega⟩

theorem get_levels_term (g : Graph) (rank : String → Nat) (fuel : Nat)
    (IH : ∀ (L : Memo) (n : String), (findNode g n).isSome → rank n < fuel →
      (get_level g fuel L n).isSome) :
    ∀ (pids : List String) (L : Memo),
      (∀ p ∈ pids, (findNode g p).isSome → rank p < fuel) →
      (get_levels_with g (get_level g fuel) L pids).isSome := by
  intro pids
  induction pids with
  | nil => intro L _; simp [get_levels_with]
  | cons pid rest ihrest =>
    intro L h
    simp only [get_levels_with]
    by_cases hex : (findNode g pid).isSome = true
    · rw [if_pos hex]
      have h1 := IH L pid hex (h pid (by simp) hex)
      cases hgl : get_level g fuel L pid with
      | none => rw [hgl] at h1; simp at h1
      | some r =>
        obtain ⟨l1, L1⟩ := r
        have h2 := ihrest L1 (fun p hp hpe => h p (by simp [hp]) hpe)
        cases hgls : get_levels_with g (get_level g fuel) L1 rest with
        | none => rw [hgls] at h2; simp at h2
        | some r2 =>
          obtain ⟨ls2, L2⟩ := r2
          simp [hgls]
    · rw [if_neg hex]
      exact ihrest L (fun p hp hpe => h p (by simp [hp]) hpe)

theorem get_level_term (g : Graph) (rank : String → Nat)
    (hrank : RankOk g rank) :
    ∀ (fuel : Nat) (L : Memo) (n : String),
      (findNode g n).isSome → rank n < fuel →
      (get_level g fuel L n).isSome := by
  intro fuel
  induction fuel with
  | zero => intro L n _ h; omega
  | succ fuel ih =>
    intro L n hex hrk
    simp only [get_level]
    cases hmem : lookupLevel L n with
    | some l0 => simp
    | none =>
      cases hfn : findNode g n with
      | none => rw [hfn] at hex; simp at hex
      | some node =>
        by_cases hprem : node.premises.isEmpty = true
        · simp [hprem]
        · have hterm := get_levels_term g rank fuel ih node.premises L
            (fun p hp hpe => by
              have := hrank n node hfn p hp hpe
              omega)
          cases hgls : get_levels_with g (get_level g fuel) L node.premises with
          | none => rw [hgls] at hterm; simp at hterm
          | some r =>
            obtain ⟨pl, L1⟩ := r
            simp [hprem, hgls]

theorem calc_levels_loop_sound (g : Graph) (rank : String → Nat)
    (hrank : RankOk g rank) (fuel : Nat) :
    ∀ (nids : List String) (L : Memo), MemoInv g L →
      (∀ nid ∈ nids, (findNode g nid).isSome ∧ rank nid < fuel) →
      ∃ L', calc_levels_loop g fuel nids L = some L' ∧ MemoLE L L' ∧
        MemoInv g L' ∧ (∀ nid ∈ nids, (lookupLevel L' nid).isSome) := by
  intro nids
  induction nids with
  | nil =>
    intro L hinv _
    exact ⟨L, by simp [calc_levels_loop], memoLE_refl L, hinv, by simp⟩
  | cons nid rest ihrest =>
    intro L hinv h
    obtain ⟨hex, hrk⟩ := h nid (by simp)
    have hsome := get_level_term g rank hrank fuel L nid hex hrk
    cases hgl : get_level g fuel L nid with
    | none => rw [hgl] at hsome; simp at hsome
    | some r =>
      obtain ⟨l1, L1⟩ := r
      obtain ⟨le1, inv1, memo1, _⟩ :=
        get_level_sound g rank hrank fuel L nid l1 L1 hgl
      obtain ⟨L', hloop, le2, inv2, cov⟩ :=
        ihrest L1 (inv1 hinv) (fun x hx => h x (by simp [hx]))
      refine ⟨L', ?_, memoLE_trans le1 le2, inv2, ?_⟩
      · simp [calc_levels_loop, hgl, hloop]
      · intro x hx
        rcases List.mem_cons.mp hx with rfl | h2
        · have hm := le2 x l1 (memo1 hex)
          rw [hm]; rfl
        · exact cov x h2

theorem le_foldl_max (l : List Nat) : ∀ init, init ≤ l.foldl Nat.max init := by
  induction l with
  | nil => intro init; exact Nat.le_refl _
  | cons a l ih =>
    intro init
    exact Nat.le_trans (Nat.le_max_left init a) (ih (Nat.max init a))

theorem mem_le_foldl_max {x : Nat} (l : List Nat) :
    x ∈ l → ∀ init, x ≤ l.foldl Nat.max init := by
  induction l with
  | nil => intro h; simp at h
  | cons a l ih =>
    intro h init
    rcases List.mem_cons.mp h with rfl | h2
    · exact Nat.le_trans (Nat.le_max_right init x) (le_foldl_max l _)
    · exact ih h2 _

theorem mem_le_listMax {x : Nat} {l : List Nat} (h : x ∈ l) : x ≤ listMax l :=
  mem_le_foldl_max l h 0

theorem findNode_isSome_of_key {g : Graph} {nid : String}
    (h : nid ∈ g.nodes.map Prod.fst) : (findNode g nid).isSome := by
  obtain ⟨e, he, heq⟩ := List.mem_map.mp h
  obtain ⟨a, b⟩ := e
  subst heq
  exact findNode_isSome_of_mem he

/-! ## Lemmas about the character-level splitter and joiner -/

theorem psplitAux_absorb (p : Char → Bool) (w : List Char)
    (hw : ∀ c ∈ w, p c = false) :
    ∀ (rest acc : List Char),
      psplitAux p (w ++ rest) acc = psplitAux p rest (acc ++ w) := by
  induction w with
  | nil => intro rest acc; simp
  | cons c cs ih =>
    intro rest acc
    have hc : p c = false := hw c (by simp)
    simp only [List.cons_append, psplitAux]
    rw [if_neg (by simp [hc])]
    have h2 := ih (fun d hd => hw d (by simp [hd])) rest (acc ++ [c])
    simpa using h2

theorem psplitAux_sep (p : Char → Bool) (c : Char) (hc : p c = true)
    (rest acc : List Char) :
    psplitAux p (c :: rest) acc
      = if acc.isEmpty then psplitAux p rest []
        else acc :: psplitAux p rest [] := by
  simp only [psplitAux]
  rw [if_pos hc]

theorem psplitAux_nil (p : Char → Bool) (acc : List Char) :
    psplitAux p [] acc = if acc.isEmpty then [] else [acc] := rfl

theorem psplit_single (p : Char → Bool) (l : List Char)
    (h : ∀ c ∈ l, p c = false) :
    psplitAux p l [] = if l.isEmpty then [] else [l] := by
  have := psplitAux_absorb p l h [] []
  simp at this
  rw [this, psplitAux_nil]

theorem psplit_joinSep (p : Char → Bool) (s : Char) (hs : p s = true) :
    ∀ (pieces : List (List Char)),
      (∀ w ∈ pieces, w ≠ [] ∧ ∀ c ∈ w, p c = false) →
      psplitAux p (joinSep [s] pieces) [] = pieces := by
  intro pieces
  induction pieces with
  | nil => intro _; rfl
  | cons w ws ih =>
    intro h
    obtain ⟨hwne, hwc⟩ := h w (by simp)
    cases ws with
    | nil =>
      show psplitAux p (joinSep [s] [w]) [] = [w]
      have hj : joinSep [s] [w] = w := rfl
      rw [hj, psplit_single p w hwc, if_neg (by simpa using hwne)]
    | cons w2 ws2 =>
      have hj : joinSep [s] (w :: w2 :: ws2)
          = w ++ (s :: joinSep [s] (w2 :: ws2)) := by
        show w ++ [s] ++ joinSep [s] (w2 :: ws2) = _
        simp
      rw [hj, psplitAux_absorb p w hwc _ [], List.nil_append,
        psplitAux_sep p s hs, if_neg (by simpa using hwne)]
      rw [ih (fun x hx => h x (by simp [hx]))]

theorem psplit_joinSep_append (p : Char → Bool) (s d : Char)
    (hs : p s = true) (hd : p d = true) :
    ∀ (pieces : List (List Char)) (rest : List Char),
      (∀ w ∈ pieces, w ≠ [] ∧ ∀ c ∈ w, p c = false) →
      psplitAux p (joinSep [s] pieces ++ d :: rest) []
        = pieces ++ psplitAux p rest [] := by
  intro pieces
  induction pieces with
  | nil =>
    intro rest _
    show psplitAux p ([] ++ d :: rest) [] = psplitAux p rest []
    rw [List.nil_append, psplitAux_sep p d hd]
    rfl
  | cons w ws ih =>
    intro rest h
    obtain ⟨hwne, hwc⟩ := h w (by simp)
    cases ws with
    | nil =>
      have hj : joinSep [s] [w] ++ d :: rest = w ++ (d :: rest) := rfl
      rw [hj, psplitAux_absorb p w hwc _ [], List.nil_append,
        psplitAux_sep p d hd, if_neg (by simpa using hwne)]
      rfl
    | cons w2 ws2 =>
      have hj : joinSep [s] (w :: w2 :: ws2) ++ d :: rest
          = w ++ (s :: (joinSep [s] (w2 :: ws2) ++ d :: rest)) := by
        show w ++ [s] ++ joinSep [s] (w2 :: ws2) ++ d :: rest = _
        simp
      rw [hj, psplitAux_absorb p w hwc _ [], List.nil_append,
        psplitAux_sep p s hs, if_neg (by simpa using hwne)]
      rw [ih rest (fun x hx => h x (by simp [hx]))]
      rfl

theorem psplit_joinlines (p : Char → Bool) (s d : Char)
    (hs : p s = true) (hd : p d = true) :
    ∀ (lss : List (List (List Char))),
      (∀ ws ∈ lss, ws ≠ [] ∧ ∀ w ∈ ws, w ≠ [] ∧ ∀ c ∈ w, p c = false) →
      psplitAux p (joinSep [d] (lss.map (joinSep [s]))) [] = lss.flatten := by
  intro lss
  induction lss with
  | nil => intro _; rfl
  | cons ws lss2 ih =>
    intro h
    obtain ⟨hwsne, hws⟩ := h ws (by simp)
    cases lss2 with
    | nil =>
      show psplitAux p (joinSep [d] [joinSep [s] ws]) [] = List.flatten [ws]
      have hj : joinSep [d] [joinSep [s] ws] = joinSep [s] ws := rfl
      rw [hj, psplit_joinSep p s hs ws hws]
      simp
    | cons ws2 lss3 =>
      have hj : joinSep [d] ((ws :: ws2 :: lss3).map (joinSep [s]))
          = joinSep [s] ws
            ++ (d :: joinSep [d] ((ws2 :: lss3).map (joinSep [s]))) := by
        show joinSep [s] ws ++ [d]
            ++ joinSep [d] ((ws2 :: lss3).map (joinSep [s])) = _
        simp
      rw [hj, psplit_joinSep_append p s d hs hd ws _ hws,
        ih (fun x hx => h x (by simp [hx]))]
      simp

theorem psplitAux_good (p : Char → Bool) :
    ∀ (l acc : List Char), (∀ c ∈ acc, p c = false) →
      ∀ w ∈ psplitAux p l acc, w ≠ [] ∧ ∀ c ∈ w, p c = false := by
  intro l
  induction l with
  | nil =>
    intro acc hacc w hw
    rw [psplitAux_nil] at hw
    by_cases he : acc.isEmpty
    · rw [if_pos he] at hw; simp at hw
    · rw [if_neg he] at hw
      simp at hw
      subst hw
      exact ⟨by simpa using he, hacc⟩
  | cons c cs ih =>
    intro acc hacc w hw
    by_cases hc : p c = true
    · rw [psplitAux_sep p c hc] at hw
      by_cases he : acc.isEmpty
      · rw [if_pos he] at hw
        exact ih [] (by simp) w hw
      · rw [if_neg he] at hw
        rcases List.mem_cons.mp hw with rfl | hw2
        · exact ⟨by simpa using he, hacc⟩
        · exact ih [] (by simp) w hw2
    · have hcf : p c = false := by revert hc; cases p c <;> simp
      rw [show psplitAux p (c :: cs) acc = psplitAux p cs (acc ++ [c]) from by
        simp only [psplitAux]; rw [if_neg (by simp [hcf])]] at hw
      refine ih (acc ++ [c]) ?_ w hw
      intro d hd
      rcases List.mem_append.mp hd with h1 | h1
      · exact hacc d h1
      · simp at h1; subst h1; exact hcf

theorem mapLast_length {α : Type} (f : α → α) :
    ∀ l : List α, (mapLast f l).length = l.length := by
  intro l
  induction l with
  | nil => rfl
  | cons a l ih =>
    cases l with
    | nil => rfl
    | cons b bs =>
      show (a :: mapLast f (b :: bs)).length = (a :: b :: bs).length
      simp only [List.length_cons]
      rw [ih]
      simp

theorem mapLast_ne_nil {α : Type} (f : α → α) (l : List α) (h : l ≠ []) :
    mapLast f l ≠ [] := by
  intro hc
  have := mapLast_length f l
  rw [hc] at this
  simp at this
  exact h (List.eq_nil_of_length_eq_zero this.symm)

theorem mapLast_append {α : Type} (f : α → α) :
    ∀ (xs ys : List α), ys ≠ [] → mapLast f (xs ++ ys) = xs ++ mapLast f ys := by
  intro xs
  induction xs with
  | nil => intro ys _; rfl
  | cons a as ih =>
    intro ys hys
    have h1 : as ++ ys ≠ [] := by simp [hys]
    cases hx : as ++ ys with
    | nil => exact absurd hx h1
    | cons b bs =>
      have : mapLast f (a :: as ++ ys) = a :: mapLast f (as ++ ys) := by
        rw [List.cons_append, hx]
        rfl
      rw [this, ih ys hys, List.cons_append]

theorem joinSep_cons (sep : List Char) (w : List Char)
    (ws : List (List Char)) (h : ws ≠ []) :
    joinSep sep (w :: ws) = w ++ sep ++ joinSep sep ws := by
  cases ws with
  | nil => exact absurd rfl h
  | cons a b => rfl

theorem joinSep_append_tail (s : Char) (t : List Char) :
    ∀ (pieces : List (List Char)), pieces ≠ [] →
      joinSep [s] pieces ++ t
        = joinSep [s] (mapLast (fun w => w ++ t) pieces) := by
  intro pieces
  induction pieces with
  | nil => intro h; exact absurd rfl h
  | cons w ws ih =>
    intro _
    cases ws with
    | nil => rfl
    | cons w2 ws2 =>
      have h2 : mapLast (fun w => w ++ t) (w2 :: ws2) ≠ [] :=
        mapLast_ne_nil _ _ (by simp)
      have hml : mapLast (fun w => w ++ t) (w :: w2 :: ws2)
          = w :: mapLast (fun w => w ++ t) (w2 :: ws2) := rfl
      rw [hml, joinSep_cons [s] w (w2 :: ws2) (by simp),
        joinSep_cons [s] w (mapLast (fun w => w ++ t) (w2 :: ws2)) h2,
        ← ih (by simp)]
      simp

/-! ## String-level round trips -/

theorem splitWords_good (c : String) :
    ∀ w ∈ splitWords c, w.data ≠ [] ∧ ∀ ch ∈ w.data, ch.isWhitespace = false := by
  intro w hw
  unfold splitWords psplit at hw
  obtain ⟨x, hx, rfl⟩ := List.mem_map.mp hw
  exact psplitAux_good _ c.data [] (by simp) x hx

theorem splitWords_joinWords (ws : List String)
    (h : ∀ w ∈ ws, w.data ≠ [] ∧ ∀ ch ∈ w.data, ch.isWhitespace = false) :
    splitWords (joinWords ws) = ws := by
  unfold splitWords joinWords psplit
  rw [show (String.mk (joinSep [' '] (ws.map String.data))).data
      = joinSep [' '] (ws.map String.data) from rfl]
  rw [psplit_joinSep _ ' ' (by decide) (ws.map String.data)
    (by
      intro w hw
      obtain ⟨x, hx, rfl⟩ := List.mem_map.mp hw
      exact h x hx)]
  rw [List.map_map]
  rw [List.map_congr_left (fun w _ => rfl : ∀ w ∈ ws, (String.mk ∘ String.data) w = id w)]
  exact List.map_id ws

theorem splitWords_normalize (c : String) :
    splitWords (normalizeText c) = splitWords c :=
  splitWords_joinWords (splitWords c) (splitWords_good c)

/-! ## Lemmas about the natural-break adjustment -/

theorem punctScanAux_bounds (cws : List String) (lo : Nat) :
    ∀ (j i : Nat), punctScanAux cws lo j = some i → lo < i ∧ i ≤ j := by
  intro j
  induction j with
  | zero => intro i h; simp [punctScanAux] at h
  | succ j ih =>
    intro i h
    simp only [punctScanAux] at h
    by_cases hlo : lo ≤ j
    · rw [if_pos hlo] at h
      by_cases hp : endsWithBreakPunct (cws.getD (j + 1) "") = true
      · rw [if_pos hp] at h
        have : j + 1 = i := by injection h
        omega
      · rw [if_neg hp] at h
        obtain ⟨h1, h2⟩ := ih i h
        exact ⟨h1, by omega⟩
    · rw [if_neg hlo] at h; simp at h

theorem take_min_length {α : Type} (l : List α) (n : Nat) :
    l.take (min n l.length) = l.take n := by
  rcases Nat.le_total n l.length with h | h
  · rw [Nat.min_eq_left h]
  · rw [Nat.min_eq_right h, List.take_length, List.take_of_length_le h]

theorem find_natural_break_take (cur aw : List String) (ni : Nat) :
    ∃ m, m ≤ cur.length ∧ find_natural_break cur aw ni = cur.take m ∧
      (cur ≠ [] → 1 ≤ m) := by
  unfold find_natural_break
  by_cases he : cur.isEmpty = true
  · rw [if_pos he]
    refine ⟨0, Nat.zero_le _, ?_, fun h => absurd (by simpa using he) h⟩
    rw [List.isEmpty_iff.mp he]
    rfl
  · rw [if_neg he]
    have hlen : 1 ≤ cur.length := by
      cases cur
      · simp at he
      · simp
    cases hscan : punctScanAux cur (cur.length - 4) (cur.length - 1) with
    | some i =>
      obtain ⟨h1, h2⟩ := punctScanAux_bounds cur _ _ i hscan
      exact ⟨i + 1, by omega, rfl, fun _ => by omega⟩
    | none =>
      by_cases hni : ni < aw.length
      · rw [if_pos hni]
        by_cases hcond : dont_break_before.contains (strToLower (aw.getD ni ""))
            ∧ 3 < cur.length
        · rw [if_pos hcond]
          refine ⟨cur.length - 1, by omega, ?_, fun _ => by omega⟩
          exact List.dropLast_eq_take cur
        · rw [if_neg hcond]
          exact ⟨cur.length, Nat.le_refl _, (List.take_length cur).symm,
            fun _ => hlen⟩
      · rw [if_neg hni]
        exact ⟨cur.length, Nat.le_refl _, (List.take_length cur).symm,
          fun _ => hlen⟩

/-! ## The line-filling loop -/

theorem gst_loop_succ (words : List String) (maxW remaining word_idx : Nat)
    (acc : List (List String)) :
    gst_loop words maxW (remaining + 1) word_idx acc
      = if words.length ≤ word_idx then (acc, word_idx)
        else if 0 < remaining ∧
            word_idx + ((words.drop word_idx).take maxW).length
              < words.length then
          gst_loop words maxW remaining
            (word_idx + ((words.drop word_idx).take maxW).length
              - (maxW - (find_natural_break ((words.drop word_idx).take maxW)
                  words
                  (word_idx + ((words.drop word_idx).take maxW).length)).length))
            (acc ++ [find_natural_break ((words.drop word_idx).take maxW) words
              (word_idx + ((words.drop word_idx).take maxW).length)])
        else
          gst_loop words maxW remaining
            (word_idx + ((words.drop word_idx).take maxW).length)
            (acc ++ [(words.drop word_idx).take maxW]) := rfl

theorem gst_loop_invariant (words : List String) (maxW : Nat) (hW : 1 ≤ maxW) :
    ∀ (remaining word_idx : Nat) (acc lines : List (List String)) (idx' : Nat),
      gst_loop words maxW remaining word_idx acc = (lines, idx') →
      word_idx ≤ words.length →
      (∀ ws ∈ acc, ws ≠ [] ∧ ws.length ≤ maxW ∧ ∀ w ∈ ws, w ∈ words) →
      acc.flatten = words.take word_idx →
      (∀ ws ∈ lines, ws ≠ [] ∧ ws.length ≤ maxW ∧ ∀ w ∈ ws, w ∈ words) ∧
      lines.flatten = words.take idx' ∧
      idx' ≤ words.length ∧
      lines.length ≤ acc.length + remaining ∧
      (0 < remaining → word_idx < words.length → acc.length < lines.length) ∧
      acc.length ≤ lines.length := by
  intro remaining
  induction remaining with
  | zero =>
    intro word_idx acc lines idx' h hidx hacc hjoin
    have h' : (acc, word_idx) = (lines, idx') := h
    injection h' with h1 h2
    subst h1; subst h2
    exact ⟨hacc, hjoin, hidx, by omega, fun h0 _ => absurd h0 (by omega),
      Nat.le_refl _⟩
  | succ remaining ih =>
    intro word_idx acc lines idx' h hidx hacc hjoin
    rw [gst_loop_succ] at h
    by_cases hle : words.length ≤ word_idx
    · rw [if_pos hle] at h
      injection h with h1 h2
      subst h1; subst h2
      exact ⟨hacc, hjoin, hidx, by omega, fun _ hlt => absurd hle (by omega),
        Nat.le_refl _⟩
    · rw [if_neg hle] at h
      have hlt : word_idx < words.length := by omega
      generalize hcur : (words.drop word_idx).take maxW = cur at h
      have hdl : (words.drop word_idx).length = words.length - word_idx :=
        List.length_drop _ _
      have hcurlen : cur.length = min maxW (words.length - word_idx) := by
        rw [← hcur, List.length_take, hdl]
      have hcurlen1 : 1 ≤ cur.length := by
        rw [hcurlen]
        rcases Nat.le_total maxW (words.length - word_idx) with hmm | hmm
        · rw [Nat.min_eq_left hmm]; omega
        · rw [Nat.min_eq_right hmm]; omega
      have hcurne : cur ≠ [] := by
        intro hc; rw [hc] at hcurlen1; simp at hcurlen1
      have hcurmem : ∀ w ∈ cur, w ∈ words := by
        intro w hw
        rw [← hcur] at hw
        exact List.mem_of_mem_drop (List.mem_of_mem_take hw)
      have hcurmax : cur.length ≤ maxW := by
        rw [hcurlen]
        rcases Nat.le_total maxW (words.length - word_idx) with hmm | hmm
        · rw [Nat.min_eq_left hmm]
        · rw [Nat.min_eq_right hmm]; omega
      have hcurbound : cur.length ≤ words.length - word_idx := by
        rw [hcurlen]
        rcases Nat.le_total maxW (words.length - word_idx) with hmm | hmm
        · rw [Nat.min_eq_left hmm]; omega
        · rw [Nat.min_eq_right hmm]
      have hcurtake : ∀ m : Nat, cur.take m
          = (words.drop word_idx).take ((cur.take m).length) := by
        intro m
        rw [← hcur, List.take_take, List.length_take, take_min_length]
      have hjoin2 : ∀ m : Nat, (acc ++ [cur.take m]).flatten
          = words.take (word_idx + (cur.take m).length) := by
        intro m
        rw [List.flatten_append, hjoin]
        have hfl : List.flatten [cur.take m] = cur.take m := by simp
        rw [hfl, List.take_add]
        exact congrArg (fun t => List.take word_idx words ++ t) (hcurtake m)
      by_cases hadj : 0 < remaining ∧ word_idx + cur.length < words.length
      · rw [if_pos hadj] at h
        obtain ⟨hrem, hmore⟩ := hadj
        obtain ⟨m0, hm0le, hfnb, hfnb1⟩ :=
          find_natural_break_take cur words (word_idx + cur.length)
        have hm01 : 1 ≤ m0 := hfnb1 hcurne
        have hcurfull : cur.length = maxW := by
          rcases Nat.le_total maxW (words.length - word_idx) with hmm | hmm
          · rw [hcurlen, Nat.min_eq_left hmm]
          · exfalso
            have h2 := hmore
            rw [hcurlen, Nat.min_eq_right hmm] at h2
            omega
        have hflen : (cur.take m0).length = m0 := by
          rw [List.length_take, Nat.min_eq_left hm0le]
        rw [hfnb] at h
        have hidx2 : word_idx + cur.length
              - (maxW - (cur.take m0).length)
            = word_idx + (cur.take m0).length := by
          rw [hflen, hcurfull]; omega
        rw [hidx2] at h
        have hgood2 : ∀ ws ∈ acc ++ [cur.take m0],
            ws ≠ [] ∧ ws.length ≤ maxW ∧ ∀ w ∈ ws, w ∈ words := by
          intro ws hws
          rcases List.mem_append.mp hws with h1 | h1
          · exact hacc ws h1
          · simp at h1; subst h1
            refine ⟨?_, ?_, ?_⟩
            · intro hc
              have hlc := congrArg List.length hc
              rw [hflen] at hlc; simp at hlc; omega
            · rw [hflen]; omega
            · intro w hw; exact hcurmem w (List.mem_of_mem_take hw)
        obtain ⟨good, joinr, ler, lenb, _, lenm⟩ :=
          ih _ _ _ _ h (by rw [hflen]; omega) hgood2 (hjoin2 m0)
        refine ⟨good, joinr, ler, ?_, ?_, ?_⟩
        · rw [List.length_append] at lenb; simp at lenb; omega
        · intro _ _
          have hlm := lenm
          rw [List.length_append] at hlm; simp at hlm; omega
        · have hlm := lenm
          rw [List.length_append] at hlm; simp at hlm; omega
      · rw [if_neg hadj] at h
        have hgood2 : ∀ ws ∈ acc ++ [cur],
            ws ≠ [] ∧ ws.length ≤ maxW ∧ ∀ w ∈ ws, w ∈ words := by
          intro ws hws
          rcases List.mem_append.mp hws with h1 | h1
          · exact hacc ws h1
          · simp at h1; subst h1
            exact ⟨hcurne, hcurmax, hcurmem⟩
        have hjoin2' : (acc ++ [cur]).flatten
            = words.take (word_idx + cur.length) := by
          have hjj := hjoin2 cur.length
          rw [List.take_length] at hjj
          exact hjj
        obtain ⟨good, joinr, ler, lenb, _, lenm⟩ :=
          ih _ _ _ _ h (by omega) hgood2 hjoin2'
        refine ⟨good, joinr, ler, ?_, ?_, ?_⟩
        · rw [List.length_append] at lenb; simp at lenb; omega
        · intro _ _
          have hlm := lenm
          rw [List.length_append] at hlm; simp at hlm; omega
        · have hlm := lenm
          rw [List.length_append] at hlm; simp at hlm; omega

/-! ## Character membership and string gluing lemmas -/

theorem mem_joinSep (sep : List Char) :
    ∀ (pieces : List (List Char)) (c : Char), c ∈ joinSep sep pieces →
      c ∈ sep ∨ ∃ w ∈ pieces, c ∈ w := by
  intro pieces
  induction pieces with
  | nil => intro c h; simp [joinSep] at h
  | cons w ws ih =>
    intro c h
    cases ws with
    | nil => exact Or.inr ⟨w, by simp, h⟩
    | cons w2 ws2 =>
      rw [joinSep_cons sep w _ (by simp)] at h
      rcases List.mem_append.mp h with h1 | h1
      · rcases List.mem_append.mp h1 with h2 | h2
        · exact Or.inr ⟨w, by simp, h2⟩
        · exact Or.inl h2
      · rcases ih c h1 with h2 | ⟨x, hx, hc⟩
        · exact Or.inl h2
        · exact Or.inr ⟨x, by simp [hx], hc⟩

theorem joinSep_ne_nil (sep : List Char) (w : List Char)
    (ws : List (List Char)) (hw : w ≠ []) : joinSep sep (w :: ws) ≠ [] := by
  cases ws with
  | nil => exact hw
  | cons a b =>
    rw [joinSep_cons _ _ _ (by simp)]
    simp [hw]

theorem string_data_append (s t : String) : (s ++ t).data = s.data ++ t.data := rfl

theorem string_eq_of_data {s t : String} (h : s.data = t.data) : s = t :=
  congrArg String.mk h

theorem mapLast_map_comm {α β : Type} (f' : α → α) (f : β → β) (g : α → β)
    (hfg : ∀ a, g (f' a) = f (g a)) :
    ∀ l : List α, (mapLast f' l).map g = mapLast f (l.map g) := by
  intro l
  induction l with
  | nil => rfl
  | cons a l ih =>
    cases l with
    | nil => simp [mapLast, hfg]
    | cons b bs =>
      show ((a :: mapLast f' (b :: bs)).map g) = mapLast f ((a :: b :: bs).map g)
      simp only [List.map_cons]
      have hm : mapLast f (g a :: g b :: (bs.map g))
          = g a :: mapLast f (g b :: bs.map g) := rfl
      rw [hm, ← List.map_cons g b bs, ih]

theorem mem_mapLast {α : Type} (f : α → α) :
    ∀ (l : List α) (x : α), x ∈ mapLast f l → x ∈ l ∨ ∃ a ∈ l, x = f a := by
  intro l
  induction l with
  | nil => intro x h; simp [mapLast] at h
  | cons a l ih =>
    intro x h
    cases l with
    | nil =>
      have : x = f a := by simpa [mapLast] using h
      exact Or.inr ⟨a, by simp, this⟩
    | cons b bs =>
      have hm : mapLast f (a :: b :: bs) = a :: mapLast f (b :: bs) := rfl
      rw [hm] at h
      rcases List.mem_cons.mp h with rfl | h2
      · exact Or.inl (by simp)
      · rcases ih x h2 with h3 | ⟨y, hy, hxy⟩
        · exact Or.inl (by simp [h3])
        · exact Or.inr ⟨y, by simp [hy], hxy⟩

theorem linesOf_joinLines (lineLists : List (List String))
    (h : ∀ ws ∈ lineLists, ws ≠ [] ∧ ∀ w ∈ ws, w.data ≠ [] ∧
      ∀ ch ∈ w.data, ch.isWhitespace = false) :
    linesOf (joinLines (lineLists.map joinWords)) = lineLists.map joinWords := by
  unfold linesOf joinLines psplit
  rw [show (String.mk (joinSep ['\n']
        ((lineLists.map joinWords).map String.data))).data
      = joinSep ['\n'] ((lineLists.map joinWords).map String.data) from rfl]
  have hgood : ∀ piece ∈ (lineLists.map joinWords).map String.data,
      piece ≠ [] ∧ ∀ ch ∈ piece, (ch == '\n') = false := by
    intro piece hpiece
    rw [List.map_map] at hpiece
    obtain ⟨ws, hws, rfl⟩ := List.mem_map.mp hpiece
    obtain ⟨hwsne, hwords⟩ := h ws hws
    constructor
    · show joinSep [' '] (ws.map String.data) ≠ []
      cases ws with
      | nil => exact absurd rfl hwsne
      | cons w ws' =>
        rw [List.map_cons]
        exact joinSep_ne_nil [' '] w.data (ws'.map String.data)
          (hwords w (by simp)).1
    · intro ch hch
      rcases mem_joinSep [' '] _ ch hch with h1 | ⟨wd, hwd, hc⟩
      · simp at h1; subst h1; decide
      · obtain ⟨w, hw, rfl⟩ := List.mem_map.mp hwd
        have hnw := (hwords w hw).2 ch hc
        cases hb : ch == '\n'
        · rfl
        · have hceq : ch = '\n' := eq_of_beq hb
          subst hceq
          exact absurd hnw (by decide)
  rw [psplit_joinSep _ '\n' (by decide) _ hgood]
  rw [List.map_map]
  rw [List.map_congr_left
    (fun w _ => rfl : ∀ w ∈ lineLists.map joinWords,
      (String.mk ∘ String.data) w = id w)]
  exact List.map_id _

theorem splitWords_joinLines (lineLists : List (List String))
    (h : ∀ ws ∈ lineLists, ws ≠ [] ∧ ∀ w ∈ ws, w.data ≠ [] ∧
      ∀ ch ∈ w.data, ch.isWhitespace = false) :
    splitWords (joinLines (lineLists.map joinWords)) = lineLists.flatten := by
  unfold splitWords joinLines psplit
  rw [show (String.mk (joinSep ['\n']
        ((lineLists.map joinWords).map String.data))).data
      = joinSep ['\n'] ((lineLists.map joinWords).map String.data) from rfl]
  rw [List.map_map]
  rw [show lineLists.map (String.data ∘ joinWords)
      = (lineLists.map (List.map String.data)).map (joinSep [' ']) from by
    rw [List.map_map]
    exact List.map_congr_left (fun ws _ => rfl)]
  rw [psplit_joinlines _ ' ' '\n' (by decide) (by decide)
    (lineLists.map (List.map String.data))
    (by
      intro ws hws
      obtain ⟨ws0, hws0, rfl⟩ := List.mem_map.mp hws
      obtain ⟨hne, hwords⟩ := h ws0 hws0
      refine ⟨by simpa using hne, ?_⟩
      intro w hw
      obtain ⟨w0, hw0, rfl⟩ := List.mem_map.mp hw
      exact hwords w0 hw0)]
  rw [← List.map_flatten, List.map_map]
  rw [List.map_congr_left
    (fun w _ => rfl : ∀ w ∈ lineLists.flatten,
      (String.mk ∘ String.data) w = id w)]
  exact List.map_id _

theorem joinWords_append_dots (ws : List String) (hne : ws ≠ []) :
    joinWords ws ++ "..." = joinWords (mapLast (fun w => w ++ "...") ws) := by
  apply string_eq_of_data
  rw [string_data_append]
  show joinSep [' '] (ws.map String.data) ++ "...".data
      = joinSep [' '] ((mapLast (fun w => w ++ "...") ws).map String.data)
  rw [joinSep_append_tail ' ' ("...".data) (ws.map String.data)
    (by simpa using hne)]
  rw [mapLast_map_comm (fun w => w ++ "...")
    (fun d => d ++ ("...".data)) String.data (fun a => rfl) ws]

/-- One canonical unfolding equation for `get_smart_title`. -/
theorem get_smart_title_eq (c : String) (maxW maxLines : Nat) :
    get_smart_title c maxW maxLines
      = if (splitWords (normalizeText c)).length ≤ maxW then normalizeText c
        else
          joinLines
            (if (gst_loop (splitWords (normalizeText c)) maxW maxLines 0 []).2
                < (splitWords (normalizeText c)).length then
              ((gst_loop (splitWords (normalizeText c)) maxW maxLines 0
                []).1.map joinWords).dropLast
                ++ [(((gst_loop (splitWords (normalizeText c)) maxW maxLines 0
                    []).1.map joinWords).getLast?).getD "" ++ "..."]
            else
              (gst_loop (splitWords (normalizeText c)) maxW maxLines 0
                []).1.map joinWords) := rfl

theorem punctScanAux_finds (cws : List String) (lo : Nat) :
    ∀ (j i : Nat), lo < i → i ≤ j →
      endsWithBreakPunct (cws.getD i "") = true →
      (∀ j', i < j' → j' ≤ j → endsWithBreakPunct (cws.getD j' "") = false) →
      punctScanAux cws lo j = some i := by
  intro j
  induction j with
  | zero => intro i h1 h2 _ _; omega
  | succ j ih =>
    intro i h1 h2 hp hr
    simp only [punctScanAux]
    by_cases hie : i = j + 1
    · subst hie
      rw [if_pos (by omega), if_pos hp]
    · have hle : i ≤ j := by omega
      rw [if_pos (by omega)]
      rw [if_neg (by rw [hr (j + 1) (by omega) (Nat.le_refl _)]; simp)]
      exact ih i h1 hle hp (fun j' a b => hr j' a (by omega))

/-! ## Claim theorems -/

/-- C6: for every input whose whitespace-normalized word count is at most
`max_words_per_line`, the formatter returns the normalized text unchanged:
equal to the normalization, containing no line break, with nothing
appended — even when `max_lines` is 1; consequently on already-normalized
text the formatter is the identity. -/
theorem formatter_short_input_unchanged (c : String) (maxW maxLines : Nat)
    (h : (splitWords c).length ≤ maxW) :
    get_smart_title c maxW maxLines = normalizeText c ∧
    (∀ ch ∈ (get_smart_title c maxW maxLines).data, ¬ ch = '\n') ∧
    (normalizeText c = c → get_smart_title c maxW maxLines = c) := by
  have hbranch : (splitWords (normalizeText c)).length ≤ maxW := by
    rw [splitWords_normalize]; exact h
  have hval : get_smart_title c maxW maxLines = normalizeText c := by
    rw [get_smart_title_eq, if_pos hbranch]
  refine ⟨hval, ?_, fun hn => by rw [hval, hn]⟩
  intro ch hch
  rw [hval] at hch
  have hch2 : ch ∈ joinSep [' '] ((splitWords c).map String.data) := hch
  rcases mem_joinSep [' '] _ ch hch2 with h1 | ⟨wd, hwd, hc⟩
  · simp at h1; subst h1; decide
  · obtain ⟨x, hx, rfl⟩ := List.mem_map.mp hwd
    have hg := (splitWords_good c x hx).2 ch hc
    intro hcc
    subst hcc
    exact absurd hg (by decide)

theorem formatter_short_input_unchanged_witness :
    (splitWords "hello world").length ≤ 8 ∧
    (get_smart_title "hello world" 8 1 = normalizeText "hello world" ∧
      (∀ ch ∈ (get_smart_title "hello world" 8 1).data, ¬ ch = '\n') ∧
      (normalizeText "hello world" = "hello world" →
        get_smart_title "hello world" 8 1 = "hello world")) :=
  ⟨by decide, formatter_short_input_unchanged "hello world" 8 1 (by decide)⟩

/-- C5: for every input and bounds ≥ 1, the formatter's output has at most
`max_lines` lines and no line has more than `max_words_per_line` words
(the truncation marker is glued onto the last word, so it adds no word). -/
theorem formatter_respects_bounds (c : String) (maxW maxLines : Nat)
    (hW : 1 ≤ maxW) (hL : 1 ≤ maxLines) :
    (linesOf (get_smart_title c maxW maxLines)).length ≤ maxLines ∧
    ∀ line ∈ linesOf (get_smart_title c maxW maxLines),
      (splitWords line).length ≤ maxW := by
  rw [get_smart_title_eq]
  by_cases hsh : (splitWords (normalizeText c)).length ≤ maxW
  · rw [if_pos hsh]
    have hnl : ∀ ch ∈ (normalizeText c).data, (ch == '\n') = false := by
      intro ch hch
      have hch2 : ch ∈ joinSep [' '] ((splitWords c).map String.data) := hch
      rcases mem_joinSep [' '] _ ch hch2 with h1 | ⟨wd, hwd, hc⟩
      · simp at h1; subst h1; decide
      · obtain ⟨x, hx, rfl⟩ := List.mem_map.mp hwd
        have hg := (splitWords_good c x hx).2 ch hc
        cases hb : ch == '\n'
        · rfl
        · have hceq : ch = '\n' := eq_of_beq hb
          subst hceq
          exact absurd hg (by decide)
    have hlines : linesOf (normalizeText c)
        = if (normalizeText c).data.isEmpty then [] else [normalizeText c] := by
      unfold linesOf psplit
      rw [psplit_single _ _ hnl]
      by_cases he : (normalizeText c).data.isEmpty
      · rw [if_pos he, if_pos he]; rfl
      · rw [if_neg he, if_neg he]; rfl
    rw [hlines]
    by_cases he : (normalizeText c).data.isEmpty
    · rw [if_pos he]
      exact ⟨by simp, by simp⟩
    · rw [if_neg he]
      constructor
      · simpa using hL
      · intro line hline
        simp at hline
        subst hline
        exact hsh
  · rw [if_neg hsh]
    obtain ⟨lines, idx', hgl⟩ : ∃ lines idx',
        gst_loop (splitWords (normalizeText c)) maxW maxLines 0 []
          = (lines, idx') := ⟨_, _, rfl⟩
    simp only [hgl]
    obtain ⟨good, joinr, ler, lenb, prog, _⟩ :=
      gst_loop_invariant (splitWords (normalizeText c)) maxW hW maxLines 0 []
        lines idx' hgl (by omega) (by simp) (by simp)
    have hlenw : 0 < (splitWords (normalizeText c)).length := by omega
    have hlinesne : lines ≠ [] := by
      have hp := prog (by omega) (by omega)
      intro hc; rw [hc] at hp; simp at hp
    have hgoodS : ∀ ws ∈ lines, ws ≠ [] ∧ ∀ w ∈ ws, w.data ≠ [] ∧
        ∀ ch ∈ w.data, ch.isWhitespace = false := by
      intro ws hws
      obtain ⟨hne, _, hmem⟩ := good ws hws
      exact ⟨hne, fun w hw => splitWords_good (normalizeText c) w (hmem w hw)⟩
    by_cases hell : idx' < (splitWords (normalizeText c)).length
    · rw [if_pos hell]
      rcases List.eq_nil_or_concat lines with hc | ⟨init, last, hlc⟩
      · exact absurd hc hlinesne
      · rw [List.concat_eq_append] at hlc
        subst hlc
        have hmapconcat : (init ++ [last]).map joinWords
            = init.map joinWords ++ [joinWords last] := by simp
        rw [hmapconcat, List.dropLast_concat, List.getLast?_concat]
        simp only [Option.getD_some]
        have hlast_ne : last ≠ [] := (good last (by simp)).1
        rw [joinWords_append_dots last hlast_ne]
        rw [show init.map joinWords
              ++ [joinWords (mapLast (fun w => w ++ "...") last)]
            = (init ++ [mapLast (fun w => w ++ "...") last]).map joinWords
          from by simp]
        have hgood2 : ∀ ws ∈ init ++ [mapLast (fun w => w ++ "...") last],
            ws ≠ [] ∧ ∀ w ∈ ws, w.data ≠ [] ∧
            ∀ ch ∈ w.data, ch.isWhitespace = false := by
          intro ws hws
          rcases List.mem_append.mp hws with h1 | h1
          · exact hgoodS ws (by simp [h1])
          · simp at h1; subst h1
            refine ⟨mapLast_ne_nil _ _ hlast_ne, ?_⟩
            intro w hw
            rcases mem_mapLast _ _ w hw with h2 | ⟨a, ha, rfl⟩
            · exact (hgoodS last (by simp)).2 w h2
            · have ha2 := (hgoodS last (by simp)).2 a ha
              constructor
              · rw [string_data_append]; simp [ha2.1]
              · intro ch hch
                rw [string_data_append] at hch
                rcases List.mem_append.mp hch with h3 | h3
                · exact ha2.2 ch h3
                · have hdots : ("..." : String).data = ['.', '.', '.'] := rfl
                  rw [hdots] at h3
                  simp at h3
                  subst h3
                  decide
        rw [linesOf_joinLines _ hgood2]
        constructor
        · rw [List.length_map, List.length_append]
          have hlb := lenb
          rw [List.length_append] at hlb
          simp at hlb ⊢
          omega
        · intro line hline
          obtain ⟨ws, hws, rfl⟩ := List.mem_map.mp hline
          rw [splitWords_joinWords ws ((hgood2 ws hws).2)]
          rcases List.mem_append.mp hws with h1 | h1
          · exact (good ws (by simp [h1])).2.1
          · simp at h1; subst h1
            rw [mapLast_length]
            exact (good last (by simp)).2.1
    · rw [if_neg hell]
      rw [linesOf_joinLines _ hgoodS]
      constructor
      · rw [List.length_map]
        simp at lenb
        omega
      · intro line hline
        obtain ⟨ws, hws, rfl⟩ := List.mem_map.mp hline
        rw [splitWords_joinWords ws ((hgoodS ws hws).2)]
        exact (good ws hws).2.1

theorem formatter_respects_bounds_witness :
    (linesOf (get_smart_title "a b c d e f" 4 2)).length ≤ 2 ∧
    ∀ line ∈ linesOf (get_smart_title "a b c d e f" 4 2),
      (splitWords line).length ≤ 4 :=
  formatter_respects_bounds "a b c d e f" 4 2 (by decide) (by decide)

/-- C10: the word sequence of the formatter's output — splitting on all
whitespace, so across lines, and with the truncation marker glued onto the
final word when truncation occurred — is a contiguous prefix of the word
sequence of the whitespace-normalized input: no word is dropped from the
middle, duplicated, reordered, or altered. -/
theorem formatter_emits_prefix_of_input_words (c : String)
    (maxW maxLines : Nat) (hW : 1 ≤ maxW) (hL : 1 ≤ maxLines) :
    ∃ k, k ≤ (splitWords c).length ∧
      (splitWords (get_smart_title c maxW maxLines)
          = (splitWords c).take k ∨
       splitWords (get_smart_title c maxW maxLines)
          = mapLast (fun w => w ++ "...") ((splitWords c).take k)) := by
  rw [get_smart_title_eq]
  by_cases hsh : (splitWords (normalizeText c)).length ≤ maxW
  · rw [if_pos hsh]
    refine ⟨(splitWords c).length, Nat.le_refl _, Or.inl ?_⟩
    rw [splitWords_normalize, List.take_length]
  · rw [if_neg hsh]
    obtain ⟨lines, idx', hgl⟩ : ∃ lines idx',
        gst_loop (splitWords (normalizeText c)) maxW maxLines 0 []
          = (lines, idx') := ⟨_, _, rfl⟩
    simp only [hgl]
    obtain ⟨good, joinr, ler, lenb, prog, _⟩ :=
      gst_loop_invariant (splitWords (normalizeText c)) maxW hW maxLines 0 []
        lines idx' hgl (by omega) (by simp) (by simp)
    have hlenw : 0 < (splitWords (normalizeText c)).length := by omega
    have hlinesne : lines ≠ [] := by
      have hp := prog (by omega) (by omega)
      intro hc; rw [hc] at hp; simp at hp
    have hgoodS : ∀ ws ∈ lines, ws ≠ [] ∧ ∀ w ∈ ws, w.data ≠ [] ∧
        ∀ ch ∈ w.data, ch.isWhitespace = false := by
      intro ws hws
      obtain ⟨hne, _, hmem⟩ := good ws hws
      exact ⟨hne, fun w hw => splitWords_good (normalizeText c) w (hmem w hw)⟩
    refine ⟨idx', ?_, ?_⟩
    · rw [← splitWords_normalize c]
      exact ler
    by_cases hell : idx' < (splitWords (normalizeText c)).length
    · rw [if_pos hell]
      refine Or.inr ?_
      rcases List.eq_nil_or_concat lines with hc | ⟨init, last, hlc⟩
      · exact absurd hc hlinesne
      · rw [List.concat_eq_append] at hlc
        subst hlc
        have hmapconcat : (init ++ [last]).map joinWords
            = init.map joinWords ++ [joinWords last] := by simp
        rw [hmapconcat, List.dropLast_concat, List.getLast?_concat]
        simp only [Option.getD_some]
        have hlast_ne : last ≠ [] := (good last (by simp)).1
        rw [joinWords_append_dots last hlast_ne]
        rw [show init.map joinWords
              ++ [joinWords (mapLast (fun w => w ++ "...") last)]
            = (init ++ [mapLast (fun w => w ++ "...") last]).map joinWords
          from by simp]
        have hgood2 : ∀ ws ∈ init ++ [mapLast (fun w => w ++ "...") last],
            ws ≠ [] ∧ ∀ w ∈ ws, w.data ≠ [] ∧
            ∀ ch ∈ w.data, ch.isWhitespace = false := by
          intro ws hws
          rcases List.mem_append.mp hws with h1 | h1
          · exact hgoodS ws (by simp [h1])
          · simp at h1; subst h1
            refine ⟨mapLast_ne_nil _ _ hlast_ne, ?_⟩
            intro w hw
            rcases mem_mapLast _ _ w hw with h2 | ⟨a, ha, rfl⟩
            · exact (hgoodS last (by simp)).2 w h2
            · have ha2 := (hgoodS last (by simp)).2 a ha
              constructor
              · rw [string_data_append]; simp [ha2.1]
              · intro ch hch
                rw [string_data_append] at hch
                rcases List.mem_append.mp hch with h3 | h3
                · exact ha2.2 ch h3
                · have hdots : ("..." : String).data = ['.', '.', '.'] := rfl
                  rw [hdots] at h3
                  simp at h3
                  subst h3
                  decide
        rw [splitWords_joinLines _ hgood2]
        rw [← splitWords_normalize c, ← joinr]
        have h1 : (init ++ [mapLast (fun w => w ++ "...") last]).flatten
            = init.flatten ++ mapLast (fun w => w ++ "...") last := by simp
        have h2 : (init ++ [last]).flatten = init.flatten ++ last := by simp
        rw [h1, h2, mapLast_append _ _ _ hlast_ne]
    · rw [if_neg hell]
      refine Or.inl ?_
      rw [splitWords_joinLines _ hgoodS, joinr, splitWords_normalize]

theorem formatter_emits_prefix_of_input_words_witness :
    ∃ k, k ≤ (splitWords "a. b c d e f").length ∧
      (splitWords (get_smart_title "a. b c d e f" 4 2)
          = (splitWords "a. b c d e f").take k ∨
       splitWords (get_smart_title "a. b c d e f" 4 2)
          = mapLast (fun w => w ++ "...")
              ((splitWords "a. b c d e f").take k)) :=
  formatter_emits_prefix_of_input_words "a. b c d e f" 4 2 (by decide)
    (by decide)

/-- C7 counterexample: on input "a. b c d e f" with bounds 4 words × 2
lines, the first line is closed while words remain, its words are
["a.", "b", "c", "d"], and "a." — the fourth-from-last placed word — ends
with break punctuation; yet the adjustment leaves the line unchanged
("a. b c d", with three words after "a."), because the backward scan
inspects only the last three placed words. This falsifies the claim's
"last 4 words" rule at this input. -/
theorem natural_break_ignores_fourth_last_word :
    get_smart_title "a. b c d e f" 4 2 = "a. b c d\ne f" ∧
    linesOf (get_smart_title "a. b c d e f" 4 2) = ["a. b c d", "e f"] ∧
    strEndsWith "a." "." = true ∧
    find_natural_break ["a.", "b", "c", "d"]
      (splitWords (normalizeText "a. b c d e f")) 4
      = ["a.", "b", "c", "d"] :=
  ⟨rfl, rfl, rfl, rfl⟩

/-- C7 (amended): for every line other than the last permitted line that is
closed while unconsumed words remain, the backward scan covers at most the
last **three** words already placed on the line and never the line's first
word (indices `len-4 < i < len`); if any scanned word ends with one of the
punctuation marks , ; : . ! ? the line is cut immediately after the
rightmost such word, and the consumption pointer is moved back so that
exactly the cut-off words return to the unconsumed pool (the next line
starts right after the kept words). -/
theorem natural_break_cuts_after_rightmost_scanned_punct :
    (∀ (cur aw : List String) (ni i : Nat), cur ≠ [] →
      cur.length - 4 < i → i < cur.length →
      endsWithBreakPunct (cur.getD i "") = true →
      (∀ j, i < j → j < cur.length →
        endsWithBreakPunct (cur.getD j "") = false) →
      find_natural_break cur aw ni = cur.take (i + 1)) ∧
    (∀ (words : List String) (maxW remaining word_idx : Nat)
        (acc : List (List String)), 0 < remaining →
      word_idx + maxW < words.length →
      gst_loop words maxW (remaining + 1) word_idx acc
        = gst_loop words maxW remaining
            (word_idx + (find_natural_break ((words.drop word_idx).take maxW)
                words (word_idx + maxW)).length)
            (acc ++ [find_natural_break ((words.drop word_idx).take maxW)
                words (word_idx + maxW)])) := by
  constructor
  · intro cur aw ni i hne hlo hi hp hr
    have hlen : 1 ≤ cur.length := List.length_pos.mpr hne
    have hscan : punctScanAux cur (cur.length - 4) (cur.length - 1) = some i :=
      punctScanAux_finds cur _ (cur.length - 1) i (by omega) (by omega) hp
        (fun j' ha hb => hr j' ha (by omega))
    unfold find_natural_break
    rw [if_neg (by simpa using hne), hscan]
  · intro words maxW remaining word_idx acc hrem hmore
    rw [gst_loop_succ]
    have hlen : ((words.drop word_idx).take maxW).length = maxW := by
      rw [List.length_take, List.length_drop]
      rw [Nat.min_eq_left (by omega)]
    rw [if_neg (by omega : ¬ words.length ≤ word_idx), hlen]
    rw [if_pos ⟨hrem, by omega⟩]
    obtain ⟨m, hm, hfnb, _⟩ :=
      find_natural_break_take ((words.drop word_idx).take maxW) words
        (word_idx + maxW)
    have hflen : (find_natural_break ((words.drop word_idx).take maxW) words
        (word_idx + maxW)).length ≤ maxW := by
      rw [hfnb, List.length_take, hlen]
      omega
    congr 1
    omega

theorem natural_break_cuts_witness :
    (find_natural_break ["a", "b.", "c", "d"] ["a", "b.", "c", "d", "e"] 4
        = ["a", "b."] ) ∧
    gst_loop ["a", "b.", "c", "d", "e"] 4 2 0 []
      = gst_loop ["a", "b.", "c", "d", "e"] 4 1 2 [["a", "b."]] := by
  constructor
  · have h := natural_break_cuts_after_rightmost_scanned_punct.1
      ["a", "b.", "c", "d"] ["a", "b.", "c", "d", "e"] 4 1 (by decide)
      (by decide) (by decide) (by decide)
      (fun j h1 h2 => by
        have hj : j = 2 ∨ j = 3 := by
          simp at h2
          omega
        rcases hj with rfl | rfl <;> decide)
    exact h
  · have h := natural_break_cuts_after_rightmost_scanned_punct.2
      ["a", "b.", "c", "d", "e"] 4 1 0 [] (by decide) (by decide)
    exact h

/-- C1: for every graph whose existing-premise relation is acyclic, the
level calculator terminates (for every large enough recursion-depth bound)
and returns a map satisfying the contract: every node of the graph has an
entry, equal to 0 when none of its premises exist in the graph (in
particular when it has no premises), and to 1 + the maximum of the levels
of its existing premises otherwise; in particular the chain A, B (premises
[A]), C (premises [B]) yields {A:0, B:1, C:2}, and a node D whose only
premise identifier is absent from the graph gets level 0. -/
theorem level_calculator_meets_contract :
    (∀ g : Graph, Acyclic g → ∃ N, ∀ fuel, N ≤ fuel →
      ∃ L, calculate_node_levels g fuel = some L ∧ LevelSpec g L) ∧
    (∃ L, calculate_node_levels chainG 10 = some L ∧
      lookupLevel L "A" = some 0 ∧ lookupLevel L "B" = some 1 ∧
      lookupLevel L "C" = some 2) ∧
    (∃ L, calculate_node_levels ghostG 10 = some L ∧
      lookupLevel L "D" = some 0) := by
  refine ⟨?_, ⟨_, rfl, rfl, rfl, rfl⟩, ⟨_, rfl, rfl⟩⟩
  rintro g ⟨rank, hrank⟩
  refine ⟨listMax ((g.nodes.map Prod.fst).map rank) + 1, fun fuel hfuel => ?_⟩
  have hcond : ∀ nid ∈ g.nodes.map Prod.fst,
      (findNode g nid).isSome ∧ rank nid < fuel := by
    intro nid hmem
    refine ⟨findNode_isSome_of_key hmem, ?_⟩
    have : rank nid ≤ listMax ((g.nodes.map Prod.fst).map rank) :=
      mem_le_listMax (List.mem_map.mpr ⟨nid, hmem, rfl⟩)
    omega
  obtain ⟨L', hloop, _, hinv, hcov⟩ :=
    calc_levels_loop_sound g rank hrank fuel (g.nodes.map Prod.fst) []
      (memoInv_nil g) hcond
  refine ⟨L', hloop, ?_⟩
  intro n node hfn
  have hkey : n ∈ g.nodes.map Prod.fst :=
    List.mem_map.mpr ⟨(n, node), findNode_mem hfn, rfl⟩
  have hsome := hcov n hkey
  cases hl : lookupLevel L' n with
  | none => rw [hl] at hsome; simp at hsome
  | some l =>
    obtain ⟨node', hfn', h0, h1⟩ := hinv n l hl
    rw [hfn] at hfn'
    have hnn : node = node' := by injection hfn'
    subst hnn
    refine ⟨l, rfl, h0, fun hne => (h1 hne).2⟩

theorem level_calculator_meets_contract_witness :
    Acyclic chainG ∧ (∃ N, ∀ fuel, N ≤ fuel →
      ∃ L, calculate_node_levels chainG fuel = some L ∧ LevelSpec chainG L) := by
  have hacyc : Acyclic chainG := by
    refine ⟨fun s => if s = "A" then 0 else if s = "B" then 1 else 2, ?_⟩
    intro n node hfn p hp hpex
    have hm := findNode_mem hfn
    simp [chainG] at hm
    rcases hm with ⟨h1, h2⟩ | ⟨h1, h2⟩ | ⟨h1, h2⟩ <;> subst h1 <;> subst h2 <;>
      simp [mkNode] at hp
    · subst hp; decide
    · subst hp; decide
  exact ⟨hacyc, level_calculator_meets_contract.1 chainG hacyc⟩

/-- C2: the claim says the Level Calculator terminates on every graph,
including a cyclic premise chain such as X (premises=[Y]), Y (premises=[X]),
and returns a defined value for the nodes on the cycle. The code does not:
`get_level` only memoizes a node after its recursion over the premises has
completed, so on the cycle it re-enters the unmemoized node forever. This
theorem shows the embedded computation exceeds every recursion-depth bound
`fuel` on the cyclic graph, i.e. the source recurses unboundedly
(a `RecursionError` in Python). -/
theorem level_calculator_diverges_on_cycle :
    ∀ fuel, calculate_node_levels cycleG fuel = none := by
  intro fuel
  have h := cycle_get_level_none fuel [] rfl rfl
  have hkeys : cycleG.nodes.map Prod.fst = ["X", "Y"] := rfl
  show calc_levels_loop cycleG fuel (cycleG.nodes.map Prod.fst) [] = none
  rw [hkeys]
  simp [calc_levels_loop, h.1]

/-- C3: a log with an incremental-merge event carrying a non-empty graph,
followed by the first full-snapshot event carrying a non-empty graph,
followed by an arbitrary suffix: the Reconciler returns the full-snapshot
event's graph, and since the suffix `l2` is universally quantified, every
record after the full-snapshot event has no effect on the result. -/
theorem reconciler_terminal_snapshot_wins (l1 l2 : List LogLine) (g : Graph)
    (hbefore : ∀ e ∈ l1, isTerminalSnapshot e = false)
    (_hmerge : ∃ e ∈ l1, isMergeSnapshot e = true) :
    load_graph_from_jsonl
      (l1 ++ LogLine.parsed "SystemFinishEvent" (some g) :: l2) = some g :=
  load_scan_reaches_terminal l1 l2 g hbefore none

theorem reconciler_terminal_snapshot_wins_witness :
    load_graph_from_jsonl
      [LogLine.parsed "GraphMergeEvent" (some ghostG),
       LogLine.parsed "SystemFinishEvent" (some chainG),
       LogLine.parsed "GraphMergeEvent" (some cycleG)] = some chainG :=
  reconciler_terminal_snapshot_wins
    [LogLine.parsed "GraphMergeEvent" (some ghostG)]
    [LogLine.parsed "GraphMergeEvent" (some cycleG)] chainG
    (by decide)
    ⟨LogLine.parsed "GraphMergeEvent" (some ghostG), by simp, by decide⟩

/-- C4: a log whose records are never tagged as the full-snapshot event,
containing an incremental-merge event with a non-empty graph preceded by
another one and followed only by records that are not merges with
non-empty graphs: the Reconciler returns the last merge's graph. -/
theorem reconciler_last_merge_wins (l1 l2 : List LogLine) (g : Graph)
    (hnofinish : ∀ e ∈ l1 ++ LogLine.parsed "GraphMergeEvent" (some g) :: l2,
      isFinishTagged e = false)
    (hafter : ∀ e ∈ l2, isMergeSnapshot e = false)
    (_hprev : ∃ e ∈ l1, isMergeSnapshot e = true) :
    load_graph_from_jsonl
      (l1 ++ LogLine.parsed "GraphMergeEvent" (some g) :: l2) = some g :=
  load_scan_reaches_last_merge l1 l2 g
    (fun e he => hnofinish e (by simp [he]))
    (fun e he => hnofinish e (by simp [he]))
    hafter none

theorem reconciler_last_merge_wins_witness :
    load_graph_from_jsonl
      [LogLine.parsed "GraphMergeEvent" (some ghostG),
       LogLine.parsed "GraphMergeEvent" (some chainG)] = some chainG :=
  reconciler_last_merge_wins
    [LogLine.parsed "GraphMergeEvent" (some ghostG)] [] chainG
    (by decide) (by decide)
    ⟨LogLine.parsed "GraphMergeEvent" (some ghostG), by simp, by decide⟩

/-- C8: for every node `n` of the graph and premise identifier `p` in its
premise list, the assembler emits the edge `(p, n)` if and only if `p` is a
key of the node mapping; in particular a dangling premise identifier
produces no edge (and `assembler_edges` is a total function, so no error). -/
theorem assembler_edge_iff_premise_exists (g : Graph) (n p : String)
    (node : Node) (hn : findNode g n = some node) (hp : p ∈ node.premises) :
    ((p, n) ∈ assembler_edges g ↔ (findNode g p).isSome) := by
  constructor
  · intro hmem
    rcases mem_assembler_edges.mp hmem with ⟨e, _, _, _, hsome⟩
    exact hsome
  · intro hsome
    exact mem_assembler_edges.mpr ⟨(n, node), findNode_mem hn, rfl, hp, hsome⟩

theorem assembler_edge_iff_premise_exists_witness :
    (findNode chainG "B" = some (mkNode "B" ["A"]) ∧
      (("A", "B") ∈ assembler_edges chainG ↔ (findNode chainG "A").isSome)) ∧
    (findNode ghostG "D" = some (mkNode "D" ["ghost"]) ∧
      (("ghost", "D") ∈ assembler_edges ghostG ↔
        (findNode ghostG "ghost").isSome)) :=
  ⟨⟨rfl, assembler_edge_iff_premise_exists chainG "B" "A" (mkNode "B" ["A"])
      rfl (by decide)⟩,
   ⟨rfl, assembler_edge_iff_premise_exists ghostG "D" "ghost"
      (mkNode "D" ["ghost"]) rfl (by decide)⟩⟩

/-- C9: for every node of a graph with duplicate-free keys (a Python dict),
the assembler's visual category — expressed by the chosen fill color — is
the refutation category exactly when `is_refutation` is set (even with an
empty premise list: refutation dominates root), the root category exactly
when the premise list is empty and the node is not a refutation, and the
normal category otherwise. -/
theorem assembler_visual_category (g : Graph) (nid : String) (node : Node)
    (hkeys : (g.nodes.map Prod.fst).Nodup) (hmem : (nid, node) ∈ g.nodes) :
    (node_color g nid node = refutation_color ↔ node.is_refutation = true) ∧
    (node_color g nid node = root_color ↔
      (node.is_refutation = false ∧ node.premises = [])) ∧
    (node_color g nid node = normal_color ↔
      (node.is_refutation = false ∧ node.premises ≠ [])) := by
  have hroot : nid ∈ root_nodes g ↔ node.premises = [] :=
    mem_root_nodes hkeys hmem
  have hcont : ((root_nodes g).contains nid = true) ↔ node.premises = [] :=
    Iff.trans List.elem_iff hroot
  have d1 : refutation_color ≠ root_color := by decide
  have d2 : refutation_color ≠ normal_color := by decide
  have d3 : root_color ≠ normal_color := by decide
  cases href : node.is_refutation
  · by_cases hprem : node.premises = []
    · have hc : nid ∈ root_nodes g := hroot.mpr hprem
      have hval : node_color g nid node = root_color := by
        simp [node_color, href, hc]
      rw [hval]
      exact ⟨⟨fun h => absurd h.symm d1, by simp⟩,
        ⟨fun _ => ⟨rfl, hprem⟩, fun _ => rfl⟩,
        ⟨fun h => absurd h d3, fun h => absurd hprem h.2⟩⟩
    · have hc : nid ∉ root_nodes g := fun h => hprem (hroot.mp h)
      have hval : node_color g nid node = normal_color := by
        simp [node_color, href, hc]
      rw [hval]
      exact ⟨⟨fun h => absurd h.symm d2, by simp⟩,
        ⟨fun h => absurd h.symm d3, fun h => absurd h.2 hprem⟩,
        ⟨fun _ => ⟨rfl, hprem⟩, fun _ => rfl⟩⟩
  · have hval : node_color g nid node = refutation_color := by
      simp [node_color, href]
    rw [hval]
    exact ⟨⟨fun _ => rfl, fun _ => rfl⟩,
      ⟨fun h => absurd h d1, fun h => by simp at h⟩,
      ⟨fun h => absurd h d2, fun h => by simp at h⟩⟩

theorem assembler_visual_category_witness :
    ((chainG.nodes.map Prod.fst).Nodup ∧ ("A", mkNode "A" []) ∈ chainG.nodes) ∧
    (node_color chainG "A" (mkNode "A" []) = root_color ↔
      ((mkNode "A" []).is_refutation = false ∧ (mkNode "A" []).premises = [])) :=
  ⟨⟨by decide, by decide⟩,
   (assembler_visual_category chainG "A" (mkNode "A" []) (by decide)
      (by decide)).2.1⟩

end GraphViz
